import Mathlib

/-!
# Verification of the PyQt-Figma-Designer generator core

A shallow embedding, in Lean 4, of the generator composition framework of the
PyQt-Figma-Designer repository:

* the name registry (`DesignGenerator.create_name`), translated as
  `normalizeName`, `freeSuffixIndex` and `create_name`;
* the geometry transform (`DesignGenerator.bounds`), translated as `bounds`;
* the SVG path emitter (`SvgGenerator.generate_path` / `create_svg_file`),
  translated as `generate_path`, `processPairs` and `create_svg_file`;
* the vector node design pass (`VectorGenerator.generate_design`), translated
  as `vector_generate_design` / `runVectors`;
* the custom button construction precondition
  (`CustomButtonGenerator.__init__`), translated as `custom_button_init`;
* the generator tree construction and namespace path propagation
  (`DesignGenerator.__init__`, `FrameGenerator.generate_design`), translated
  as `buildNode`.

Python machine floats are modelled as exact rationals (`ℚ`); Python strings
are modelled as `String` / `List Char` with the ASCII fragment of
`str.lower` / `str.isalnum` (`Char.toLower` / `Char.isAlphanum`).
-/

/-! ## Decimal representation of naturals

Python formats integers in decimal (`f'{i}'`).  `pyNatRepr` is the decimal
representation, built from `Nat.digits` so that injectivity is provable. -/

/-- The character for one decimal digit `0 ≤ d ≤ 9`. -/
def decDigitChar (d : Nat) : Char := Char.ofNat (48 + d)

/-- Decimal digits of `n`, least significant first, with explicit fuel so the
function evaluates by kernel reduction.  Any fuel `≥ n` is sufficient
(`decDigits_eq_digits`). -/
def decDigits : Nat → Nat → List Nat
  | _, 0 => []
  | 0, _ + 1 => []
  | fuel + 1, n + 1 => ((n + 1) % 10) :: decDigits fuel ((n + 1) / 10)

theorem decDigits_eq_digits : ∀ (fuel n : Nat), n ≤ fuel →
    decDigits fuel n = Nat.digits 10 n
  | _, 0, _ => by simp [decDigits]
  | 0, n + 1, h => by omega
  | fuel + 1, n + 1, h => by
    rw [decDigits, Nat.digits_def' (by norm_num : 1 < 10) (Nat.succ_pos n)]
    have hdiv : (n + 1) / 10 < n + 1 := Nat.div_lt_self (Nat.succ_pos n) (by norm_num)
    rw [decDigits_eq_digits fuel ((n + 1) / 10) (by omega)]

/-- Decimal representation of a natural number, as produced by Python's
string formatting of an `int` (`f'{i}'`). -/
def pyNatRepr (n : Nat) : String :=
  if n = 0 then "0" else ⟨((decDigits n n).reverse.map decDigitChar)⟩

theorem pyNatRepr_eq_digits (n : Nat) :
    pyNatRepr n = if n = 0 then "0" else ⟨((Nat.digits 10 n).reverse.map decDigitChar)⟩ := by
  rw [pyNatRepr, decDigits_eq_digits n n le_rfl]

theorem decDigitChar_injOn {a b : Nat} (ha : a < 10) (hb : b < 10)
    (h : decDigitChar a = decDigitChar b) : a = b := by
  interval_cases a <;> interval_cases b <;> simp_all [decDigitChar]

theorem map_decDigitChar_inj : ∀ {l1 l2 : List Nat},
    (∀ d ∈ l1, d < 10) → (∀ d ∈ l2, d < 10) →
    l1.map decDigitChar = l2.map decDigitChar → l1 = l2
  | [], [], _, _, _ => rfl
  | [], _ :: _, _, _, h => by simp at h
  | _ :: _, [], _, _, h => by simp at h
  | a :: l1, b :: l2, h1, h2, h => by
    simp only [List.map_cons, List.cons.injEq] at h
    have hd : a = b :=
      decDigitChar_injOn (h1 a (by simp)) (h2 b (by simp)) h.1
    have ht : l1 = l2 :=
      map_decDigitChar_inj (fun d hd => h1 d (by simp [hd]))
        (fun d hd => h2 d (by simp [hd])) h.2
    rw [hd, ht]

theorem pyNatRepr_ne_zero_of_pos {n : Nat} (hn : n ≠ 0) : pyNatRepr n ≠ "0" := by
  intro h
  have hne : Nat.digits 10 n ≠ [] := Nat.digits_ne_nil_iff_ne_zero.mpr hn
  rw [pyNatRepr_eq_digits] at h
  simp only [if_neg hn] at h
  have hdata : ((Nat.digits 10 n).reverse.map decDigitChar) = ['0'] :=
    congrArg String.data h
  rcases hrev : (Nat.digits 10 n).reverse with _ | ⟨d, rest⟩
  · exact hne (by simpa using congrArg List.reverse hrev)
  · rw [hrev] at hdata
    simp only [List.map_cons, List.cons.injEq] at hdata
    obtain ⟨hd0, hrest⟩ := hdata
    have hrestnil : rest = [] := by simpa using hrest
    -- so the digit list is [d] with decDigitChar d = '0', hence d = 0
    have hdlt : d < 10 := by
      have : d ∈ Nat.digits 10 n := by
        have : d ∈ (Nat.digits 10 n).reverse := by rw [hrev]; simp
        simpa using this
      exact Nat.digits_lt_base (by norm_num) this
    have hd : d = 0 := decDigitChar_injOn hdlt (by norm_num) (by simpa [decDigitChar] using hd0)
    -- but then n = ofDigits 10 [0] = 0, contradicting hn
    have hdig : Nat.digits 10 n = [d] := by
      have := congrArg List.reverse hrev
      simpa [hrestnil] using this
    have hzero := congrArg (Nat.ofDigits 10) hdig
    rw [Nat.ofDigits_digits] at hzero
    simp [hd, Nat.ofDigits] at hzero
    exact hn (by exact_mod_cast hzero)

theorem pyNatRepr_inj : Function.Injective pyNatRepr := by
  intro m n h
  by_cases hm : m = 0 <;> by_cases hn : n = 0
  · rw [hm, hn]
  · rw [hm] at h
    simp only [pyNatRepr_eq_digits, if_pos rfl] at h
    rw [← pyNatRepr_eq_digits] at h
    exact absurd h.symm (pyNatRepr_ne_zero_of_pos hn)
  · rw [hn] at h
    simp only [pyNatRepr_eq_digits, if_pos rfl] at h
    rw [← pyNatRepr_eq_digits] at h
    exact absurd h (pyNatRepr_ne_zero_of_pos hm)
  · rw [pyNatRepr_eq_digits, pyNatRepr_eq_digits] at h
    simp only [if_neg hm, if_neg hn] at h
    have hdata := congrArg String.data h
    simp only at hdata
    have hrev : (Nat.digits 10 m).reverse.map decDigitChar
        = (Nat.digits 10 n).reverse.map decDigitChar := hdata
    have hdm : ∀ d ∈ (Nat.digits 10 m).reverse, d < 10 := fun d hd =>
      Nat.digits_lt_base (by norm_num) (by simpa using hd)
    have hdn : ∀ d ∈ (Nat.digits 10 n).reverse, d < 10 := fun d hd =>
      Nat.digits_lt_base (by norm_num) (by simpa using hd)
    have hds : (Nat.digits 10 m).reverse = (Nat.digits 10 n).reverse :=
      map_decDigitChar_inj hdm hdn hrev
    have hdig : Nat.digits 10 m = Nat.digits 10 n := by
      have := congrArg List.reverse hds
      simpa using this
    have := congrArg (Nat.ofDigits 10) hdig
    rwa [Nat.ofDigits_digits, Nat.ofDigits_digits] at this

theorem pyNatRepr_length_pos (n : Nat) : 0 < (pyNatRepr n).length := by
  by_cases hn : n = 0
  · rw [hn]; decide
  · rw [pyNatRepr_eq_digits]
    simp only [if_neg hn, String.length]
    have hne : Nat.digits 10 n ≠ [] := Nat.digits_ne_nil_iff_ne_zero.mpr hn
    simp only [List.length_map, List.length_reverse]
    exact List.length_pos.mpr hne

/-! ## Name normalization (`DesignGenerator.create_name`, lines 93–104)

The Python code normalizes `figma_node['name']` by: replacing spaces with
underscores, lowercasing, keeping only alphanumeric characters and
underscores, collapsing runs of underscores (`while '__' in v: v =
v.replace('__', '_')`), stripping leading and trailing underscores, falling
back to `'view'` when empty, and prepending an underscore when the result
starts with a digit. -/

/-- `s.replace(' ', '_')` on the character list. -/
def pyReplaceSpace (l : List Char) : List Char :=
  l.map fun c => if c = ' ' then '_' else c

/-- `s.lower()` on the character list (ASCII fragment, `Char.toLower`). -/
def pyLowerChars (l : List Char) : List Char :=
  l.map Char.toLower

/-- `''.join(c for c in v if c.isalnum() or c == '_')` (ASCII fragment). -/
def pyFilterAlnum (l : List Char) : List Char :=
  l.filter fun c => c.isAlphanum || c = '_'

/-- One pass of `v.replace('__', '_')`: replaces non-overlapping occurrences
of two underscores by one, left to right. -/
def collapseStep : List Char → List Char
  | [] => []
  | [c] => [c]
  | c1 :: c2 :: rest =>
    if c1 = '_' ∧ c2 = '_' then '_' :: collapseStep rest
    else c1 :: collapseStep (c2 :: rest)

/-- `'__' in v`: does the list contain two adjacent underscores? -/
def hasDoubleUnderscore : List Char → Bool
  | [] => false
  | [_] => false
  | c1 :: c2 :: rest => (c1 = '_' && c2 = '_') || hasDoubleUnderscore (c2 :: rest)

theorem collapseStep_length_le : (l : List Char) → (collapseStep l).length ≤ l.length
  | [] => by simp [collapseStep]
  | [c] => by simp [collapseStep]
  | c1 :: c2 :: rest => by
    simp only [collapseStep]
    split
    · have := collapseStep_length_le rest
      simp only [List.length_cons]
      omega
    · have := collapseStep_length_le (c2 :: rest)
      simp only [List.length_cons] at *
      omega

theorem collapseStep_length_lt : (l : List Char) → hasDoubleUnderscore l = true →
    (collapseStep l).length < l.length
  | [], h => by simp [hasDoubleUnderscore] at h
  | [c], h => by simp [hasDoubleUnderscore] at h
  | c1 :: c2 :: rest, h => by
    simp only [collapseStep]
    split
    · have := collapseStep_length_le rest
      simp only [List.length_cons]
      omega
    · next hne =>
      have hdd : hasDoubleUnderscore (c2 :: rest) = true := by
        simp only [hasDoubleUnderscore, Bool.or_eq_true, decide_eq_true_eq,
          Bool.and_eq_true] at h ⊢
        tauto
      have := collapseStep_length_lt (c2 :: rest) hdd
      simp only [List.length_cons] at *
      omega

/-- The loop `while '__' in v: v = v.replace('__', '_')`, with explicit fuel.
Each `collapseStep` strictly shrinks the list, so any fuel of at least the
list's length computes the loop's result (`collapseLoop_congr`). -/
def collapseLoop : Nat → List Char → List Char
  | 0, l => l
  | fuel + 1, l =>
    if hasDoubleUnderscore l then collapseLoop fuel (collapseStep l) else l

/-- `while '__' in v: v = v.replace('__', '_')`. -/
def collapseUnderscores (l : List Char) : List Char :=
  collapseLoop l.length l

theorem collapseLoop_congr : ∀ (fuel1 : Nat) (fuel2 : Nat) (l : List Char),
    l.length ≤ fuel1 → l.length ≤ fuel2 → collapseLoop fuel1 l = collapseLoop fuel2 l
  | 0, fuel2, l, h1, _ => by
    have : l = [] := List.eq_nil_of_length_eq_zero (Nat.le_zero.mp h1)
    subst this
    cases fuel2 <;> simp [collapseLoop, hasDoubleUnderscore]
  | fuel1 + 1, fuel2, l, h1, h2 => by
    by_cases hdd : hasDoubleUnderscore l
    · have hlt := collapseStep_length_lt l hdd
      have hl2 : 2 ≤ l.length := by
        match l, hdd with
        | c1 :: c2 :: rest, _ => simp only [List.length_cons]; omega
        | [], h => simp [hasDoubleUnderscore] at h
        | [c], h => simp [hasDoubleUnderscore] at h
      obtain ⟨f2, rfl⟩ : ∃ f2, fuel2 = f2 + 1 := ⟨fuel2 - 1, by omega⟩
      simp only [collapseLoop, if_pos hdd]
      exact collapseLoop_congr fuel1 f2 (collapseStep l) (by omega) (by omega)
    · cases fuel2 <;> simp [collapseLoop, hdd]

theorem collapseUnderscores_eq_step (l : List Char) (h : hasDoubleUnderscore l = true) :
    collapseUnderscores l = collapseUnderscores (collapseStep l) := by
  have hlt := collapseStep_length_lt l h
  unfold collapseUnderscores
  have h2 : 1 ≤ l.length := by omega
  obtain ⟨n, hn⟩ : ∃ n, l.length = n + 1 := ⟨l.length - 1, by omega⟩
  rw [hn]
  simp only [collapseLoop, if_pos h]
  exact collapseLoop_congr n (collapseStep l).length (collapseStep l) (by omega) le_rfl

theorem collapseUnderscores_eq_self (l : List Char) (h : hasDoubleUnderscore l = false) :
    collapseUnderscores l = l := by
  unfold collapseUnderscores
  cases hl : l.length with
  | zero => simp [collapseLoop]
  | succ n => simp [collapseLoop, h]

/-- `while v.startswith('_'): v = v[1:]`. -/
def dropLeadingUnderscores (l : List Char) : List Char :=
  l.dropWhile (· = '_')

/-- `while v.endswith('_'): v = v[:-1]`. -/
def dropTrailingUnderscores (l : List Char) : List Char :=
  (l.reverse.dropWhile (· = '_')).reverse

/-- The normalization part of `DesignGenerator.create_name`
(design_generator.py lines 93–104), on character lists. -/
def normalizeCore (l : List Char) : List Char :=
  dropTrailingUnderscores (dropLeadingUnderscores
    (collapseUnderscores (pyFilterAlnum (pyLowerChars (pyReplaceSpace l)))))

/-- `if view_name[0].isdigit(): view_name = '_' + view_name`. -/
def prependIfDigit : List Char → List Char
  | [] => []
  | c :: rest => if c.isDigit then '_' :: c :: rest else c :: rest

def normalizeChars (l : List Char) : List Char :=
  prependIfDigit (if normalizeCore l = [] then "view".data else normalizeCore l)

/-- The normalization part of `DesignGenerator.create_name`, on strings. -/
def normalizeName (raw : String) : String :=
  ⟨normalizeChars raw.data⟩

example : normalizeName "My  Cool Button!" = "my_cool_button" := by decide
example : normalizeName "" = "view" := by decide
example : normalizeName "9 lives" = "_9_lives" := by decide
example : normalizeName "__a__b__" = "a_b" := by decide

/-! ## The name registry (`DesignGenerator.create_name`, lines 105–112)

`used_names` is a process-wide set of already assigned identifiers; the
disambiguation loop tries `base`, then `base_0`, `base_1`, … and returns the
first candidate not yet used, then registers it. -/

/-- The candidate `f'{view_name}_{i}'`. -/
def suffixName (base : String) (i : Nat) : String :=
  base ++ "_" ++ pyNatRepr i

theorem suffixName_inj (base : String) {i j : Nat}
    (h : suffixName base i = suffixName base j) : i = j := by
  apply pyNatRepr_inj
  have hd := congrArg String.data h
  simp only [suffixName, String.data_append] at hd
  rw [List.append_assoc, List.append_assoc] at hd
  have h1 : "_".data ++ (pyNatRepr i).data = "_".data ++ (pyNatRepr j).data :=
    List.append_cancel_left hd
  have h2 : (pyNatRepr i).data = (pyNatRepr j).data :=
    List.append_cancel_left h1
  exact String.ext h2

theorem suffixName_ne_base (base : String) (i : Nat) : suffixName base i ≠ base := by
  intro h
  have hlen := congrArg String.length h
  simp only [suffixName, String.length_append] at hlen
  have h1 := pyNatRepr_length_pos i
  have h2 : "_".length = 1 := rfl
  omega

/-- There is always a free suffix index: the candidates are pairwise distinct,
and `used` is finite. -/
theorem exists_free_suffix (used : List String) (base : String) :
    ∃ i, suffixName base i ∉ used := by
  by_contra hall
  push_neg at hall
  have hinj : Function.Injective fun i : Fin (used.length + 1) => suffixName base i.val :=
    fun a b hab => Fin.ext (suffixName_inj base hab)
  have hmaps : ∀ i : Fin (used.length + 1), suffixName base i.val ∈ used.toFinset := by
    intro i
    simp only [List.mem_toFinset]
    exact hall i.val
  have hcard : (Finset.univ : Finset (Fin (used.length + 1))).card ≤ used.toFinset.card :=
    Finset.card_le_card_of_injOn (fun i => suffixName base i.val)
      (fun i _ => hmaps i) (fun a _ b _ hab => hinj hab)
  simp only [Finset.card_univ, Fintype.card_fin] at hcard
  have := used.toFinset_card_le
  omega

/-- The index found by the loop `while new_name in cls.used_names: new_name =
f'{view_name}_{i}'; i += 1` when `base` itself is already used: the smallest
`i` with `f'{base}_{i}'` free. -/
def freeSuffixIndex (used : List String) (base : String) : Nat :=
  Nat.find (exists_free_suffix used base)

/-- `DesignGenerator.create_name` (design_generator.py lines 84–112):
normalize the raw name, disambiguate it against the set of used names, and
register the result.  Returns the chosen identifier together with the updated
used-name set (modelled as a list). -/
def create_name (used : List String) (raw : String) : String × List String :=
  let base := normalizeName raw
  let name := if base ∈ used then suffixName base (freeSuffixIndex used base) else base
  (name, name :: used)

/-- Successive calls of `create_name`, in call order, returning the list of
assigned identifiers and the final used-name set. -/
def runCreateNames (used : List String) : List String → List String × List String
  | [] => ([], used)
  | raw :: raws =>
    let p := create_name used raw
    let q := runCreateNames p.2 raws
    (p.1 :: q.1, q.2)

/-! ## Claim C1: N same-base raw names yield `base, base_0, …, base_{N-2}` -/

/-- The identifier the registry assigns on the `k`-th call (0-based) for a
fixed normalized base: the base itself first, then `base_0`, `base_1`, …. -/
def expectedName (base : String) : Nat → String
  | 0 => base
  | k + 1 => suffixName base k

/-- The used-name set after `k` same-base calls starting from the empty
registry, in the order `create_name` builds it (most recent first). -/
def expectedUsed (base : String) : Nat → List String
  | 0 => []
  | k + 1 => expectedName base k :: expectedUsed base k

theorem expectedName_inj (base : String) : ∀ {i j : Nat},
    expectedName base i = expectedName base j → i = j := by
  intro i j h
  match i, j, h with
  | 0, 0, _ => rfl
  | 0, j + 1, h => exact absurd h.symm (suffixName_ne_base base j)
  | i + 1, 0, h => exact absurd h (suffixName_ne_base base i)
  | i + 1, j + 1, h => exact congrArg Nat.succ (suffixName_inj base h)

theorem mem_expectedUsed {base : String} {s : String} : ∀ {k : Nat},
    s ∈ expectedUsed base k ↔ ∃ j, j < k ∧ s = expectedName base j := by
  intro k
  induction k with
  | zero => simp [expectedUsed]
  | succ k ih =>
    simp only [expectedUsed, List.mem_cons, ih]
    constructor
    · rintro (h | ⟨j, hj, rfl⟩)
      · exact ⟨k, by omega, h⟩
      · exact ⟨j, by omega, rfl⟩
    · rintro ⟨j, hj, rfl⟩
      by_cases hjk : j = k
      · exact Or.inl (by rw [hjk])
      · exact Or.inr ⟨j, by omega, rfl⟩

theorem create_name_same_base (base : String) (raw : String) (k : Nat)
    (hraw : normalizeName raw = base) :
    create_name (expectedUsed base k) raw
      = (expectedName base k, expectedUsed base (k + 1)) := by
  cases k with
  | zero =>
    have hnotmem : base ∉ expectedUsed base 0 := by simp [expectedUsed]
    simp only [create_name, hraw, if_neg hnotmem]
    rfl
  | succ k =>
    have hmem : base ∈ expectedUsed base (k + 1) :=
      mem_expectedUsed.mpr ⟨0, by omega, rfl⟩
    have hfind : freeSuffixIndex (expectedUsed base (k + 1)) base = k := by
      rw [freeSuffixIndex, Nat.find_eq_iff]
      constructor
      · intro hk
        obtain ⟨j, hj, hje⟩ := mem_expectedUsed.mp hk
        have := expectedName_inj base
          (show expectedName base (k + 1) = expectedName base j from hje)
        omega
      · intro j hj hnot
        exact hnot (mem_expectedUsed.mpr ⟨j + 1, by omega, rfl⟩)
    simp only [create_name, hraw, if_pos hmem, hfind]
    rfl

theorem runCreateNames_same_base (base : String) :
    ∀ (raws : List String) (k : Nat), (∀ r ∈ raws, normalizeName r = base) →
    runCreateNames (expectedUsed base k) raws
      = ((List.range raws.length).map (fun i => expectedName base (k + i)),
         expectedUsed base (k + raws.length))
  | [], k, _ => by simp [runCreateNames]
  | raw :: raws, k, h => by
    have hraw : normalizeName raw = base := h raw (by simp)
    have hrest : ∀ r ∈ raws, normalizeName r = base := fun r hr => h r (by simp [hr])
    simp only [runCreateNames, create_name_same_base base raw k hraw]
    rw [runCreateNames_same_base base raws (k + 1) hrest]
    simp only [List.length_cons, List.range_succ_eq_map, List.map_cons, List.map_map]
    simp only [Prod.mk.injEq]
    constructor
    · rw [Nat.add_zero]
      congr 1
      apply List.map_congr_left
      intro i _
      simp only [Function.comp_apply]
      congr 1
      omega
    · congr 1
      omega

/-- Claim C1.  For every sequence of `N` raw name strings that all normalize
to the same base string, `N` successive `create_name` calls starting from the
empty registry return: the normalized base unsuffixed on the first call, and
`base_{k-1}` on the `k`-th subsequent call, pairwise distinct. -/
theorem claim_C1_name_uniqueness (raws : List String) (base : String)
    (hb : ∀ r ∈ raws, normalizeName r = base) :
    (runCreateNames [] raws).1
        = (List.range raws.length).map
            (fun k => if k = 0 then base else suffixName base (k - 1))
      ∧ (runCreateNames [] raws).1.Nodup := by
  have h0 : expectedUsed base 0 = [] := rfl
  have hrun := runCreateNames_same_base base raws 0 hb
  rw [h0] at hrun
  have hnames : (runCreateNames [] raws).1
      = (List.range raws.length).map (fun i => expectedName base i) := by
    rw [hrun]
    simp only [Nat.zero_add]
  constructor
  · rw [hnames]
    apply List.map_congr_left
    intro i _
    cases i with
    | zero => rfl
    | succ i => rfl
  · rw [hnames]
    exact (List.nodup_range _).map (fun a b hab => expectedName_inj base hab)

/-- Witness for C1: three raw names that all normalize to `btn` give
`btn`, `btn_0`, `btn_1`, pairwise distinct. -/
theorem claim_C1_name_uniqueness_witness :
    (runCreateNames [] ["Btn", "btn", "BTN"]).1 = ["btn", "btn_0", "btn_1"]
      ∧ (runCreateNames [] ["Btn", "btn", "BTN"]).1.Nodup := by
  have h := claim_C1_name_uniqueness ["Btn", "btn", "BTN"] "btn" (by decide)
  refine ⟨?_, h.2⟩
  rw [h.1]
  decide

/-! ## Claim C9: normalization idempotence -/

theorem char_toNat_ofNat_valid (n : Nat) (h : n.isValidChar) :
    (Char.ofNat n).toNat = n := by
  simp only [Char.ofNat, dif_pos h, Char.ofNatAux, Char.toNat]
  rfl

theorem toLower_toNat_not_upper (c : Char) :
    ¬(65 ≤ (Char.toLower c).toNat ∧ (Char.toLower c).toNat ≤ 90) := by
  rw [Char.toLower]
  split
  · next h =>
    have hvalid : (c.toNat + 32).isValidChar := by
      apply Or.inl
      omega
    rw [char_toNat_ofNat_valid _ hvalid]
    omega
  · next h => omega

theorem toLower_idem (c : Char) :
    Char.toLower (Char.toLower c) = Char.toLower c := by
  have h := toLower_toNat_not_upper c
  rw [show Char.toLower (Char.toLower c)
      = if (Char.toLower c).toNat ≥ 65 ∧ (Char.toLower c).toNat ≤ 90 then
          Char.ofNat ((Char.toLower c).toNat + 32)
        else Char.toLower c from rfl]
  rw [if_neg h]

theorem mem_collapseStep : ∀ {l : List Char} {c : Char}, c ∈ collapseStep l → c ∈ l
  | [], _, h => by simp [collapseStep] at h
  | [a], _, h => by simpa [collapseStep] using h
  | c1 :: c2 :: rest, c, h => by
    simp only [collapseStep] at h
    split at h
    · next hcc =>
      rcases List.mem_cons.mp h with h1 | h2
      · simp [h1, hcc.1]
      · simp [mem_collapseStep h2]
    · rcases List.mem_cons.mp h with h1 | h2
      · simp [h1]
      · have := mem_collapseStep h2
        simp only [List.mem_cons] at this ⊢
        tauto

theorem mem_collapseLoop : ∀ (fuel : Nat) {l : List Char} {c : Char},
    c ∈ collapseLoop fuel l → c ∈ l
  | 0, l, c, h => h
  | fuel + 1, l, c, h => by
    rw [collapseLoop] at h
    split at h
    · exact mem_collapseStep (mem_collapseLoop fuel h)
    · exact h

theorem mem_collapseUnderscores {l : List Char} {c : Char}
    (h : c ∈ collapseUnderscores l) : c ∈ l :=
  mem_collapseLoop l.length h

theorem mem_dropLeadingUnderscores {l : List Char} {c : Char}
    (h : c ∈ dropLeadingUnderscores l) : c ∈ l :=
  (List.dropWhile_sublist _).mem h

theorem mem_dropTrailingUnderscores {l : List Char} {c : Char}
    (h : c ∈ dropTrailingUnderscores l) : c ∈ l := by
  rw [dropTrailingUnderscores, List.mem_reverse] at h
  have := (List.dropWhile_sublist (fun x => x = '_')).mem h
  rwa [List.mem_reverse] at this

/-- `hasDoubleUnderscore` detects exactly the splittings around two adjacent
underscores. -/
theorem hasDoubleUnderscore_iff : ∀ (l : List Char),
    hasDoubleUnderscore l = true ↔ ∃ a b, l = a ++ '_' :: '_' :: b
  | [] => by
    simp only [hasDoubleUnderscore]
    constructor
    · intro h; exact absurd h (by simp)
    · rintro ⟨a, b, h⟩
      exact absurd h (by simp)
  | [c] => by
    simp only [hasDoubleUnderscore]
    constructor
    · intro h; exact absurd h (by simp)
    · rintro ⟨a, b, h⟩
      rcases a with _ | ⟨x, xs⟩ <;> simp_all
  | c1 :: c2 :: rest => by
    rw [hasDoubleUnderscore]
    constructor
    · intro h
      rcases Bool.or_eq_true_iff.mp h with h1 | h2
      · have h1' : c1 = '_' ∧ c2 = '_' := by
          constructor <;> [skip; skip] <;>
            simp_all [Bool.and_eq_true, decide_eq_true_eq]
        exact ⟨[], rest, by simp [h1'.1, h1'.2]⟩
      · obtain ⟨a, b, hab⟩ := (hasDoubleUnderscore_iff (c2 :: rest)).mp h2
        exact ⟨c1 :: a, b, by simp [hab]⟩
    · rintro ⟨a, b, hab⟩
      rcases a with _ | ⟨x, xs⟩
      · simp only [List.nil_append, List.cons.injEq] at hab
        obtain ⟨h1, h2, _⟩ := hab
        simp [h1, h2]
      · simp only [List.cons_append, List.cons.injEq] at hab
        obtain ⟨_, hab2⟩ := hab
        apply Bool.or_eq_true_iff.mpr
        exact Or.inr ((hasDoubleUnderscore_iff (c2 :: rest)).mpr ⟨xs, b, hab2⟩)

theorem hasDoubleUnderscore_collapseLoop : ∀ (fuel : Nat) (l : List Char),
    l.length ≤ fuel → hasDoubleUnderscore (collapseLoop fuel l) = false
  | 0, l, h => by
    have : l = [] := List.eq_nil_of_length_eq_zero (Nat.le_zero.mp h)
    subst this
    simp [collapseLoop, hasDoubleUnderscore]
  | fuel + 1, l, h => by
    rw [collapseLoop]
    by_cases hdd : hasDoubleUnderscore l
    · rw [if_pos hdd]
      have := collapseStep_length_lt l hdd
      exact hasDoubleUnderscore_collapseLoop fuel (collapseStep l) (by omega)
    · rw [if_neg hdd]
      exact Bool.not_eq_true _ ▸ (by simpa using hdd)

theorem hasDoubleUnderscore_collapseUnderscores (l : List Char) :
    hasDoubleUnderscore (collapseUnderscores l) = false :=
  hasDoubleUnderscore_collapseLoop l.length l le_rfl

theorem dropWhile_head_false {p : Char → Bool} : ∀ {l : List Char} {c : Char} {rest : List Char},
    l.dropWhile p = c :: rest → p c = false
  | [], c, rest, h => by simp at h
  | a :: l, c, rest, h => by
    rw [List.dropWhile_cons] at h
    split at h
    · exact dropWhile_head_false h
    · next hpa =>
      cases h
      simpa using hpa

theorem dropLeadingUnderscores_of_head {c : Char} {l : List Char}
    (h : (c = '_') = False) : dropLeadingUnderscores (c :: l) = c :: l := by
  rw [dropLeadingUnderscores, List.dropWhile_cons, if_neg (by simpa using h)]

theorem dropTrailingUnderscores_of_getLast {l : List Char}
    (h : ∀ c rest, l.reverse = c :: rest → (c = '_') = False) :
    dropTrailingUnderscores l = l := by
  rw [dropTrailingUnderscores]
  rcases hrev : l.reverse with _ | ⟨c, rest⟩
  · simp only [List.dropWhile_nil]
    rw [← hrev, List.reverse_reverse]
  · rw [List.dropWhile_cons, if_neg (by simpa using h c rest hrev), ← hrev,
      List.reverse_reverse]

/-- The characters surviving the alphanumeric filter after lowercasing are
fixed by a second round of space replacement, lowercasing and filtering. -/
theorem pyFilterAlnum_pyLowerChars_mem {l : List Char} {c : Char}
    (h : c ∈ pyFilterAlnum (pyLowerChars l)) :
    (c.isAlphanum || c = '_') = true ∧ Char.toLower c = c ∧ c ≠ ' ' := by
  have hpass := List.of_mem_filter h
  have hmem : c ∈ pyLowerChars l := List.mem_of_mem_filter h
  obtain ⟨a, _, rfl⟩ := List.mem_map.mp hmem
  refine ⟨hpass, toLower_idem a, ?_⟩
  intro hsp
  rw [hsp] at hpass
  simp at hpass

theorem map_eq_self_of {f : Char → Char} : ∀ {l : List Char},
    (∀ c ∈ l, f c = c) → l.map f = l
  | [], _ => rfl
  | a :: l, h => by
    rw [List.map_cons, h a (by simp), map_eq_self_of (fun c hc => h c (by simp [hc]))]

/-- Characters of `normalizeCore l` all come from the filtered, lowered list. -/
theorem mem_normalizeCore {l : List Char} {c : Char} (h : c ∈ normalizeCore l) :
    c ∈ pyFilterAlnum (pyLowerChars (pyReplaceSpace l)) :=
  mem_collapseUnderscores
    (mem_dropLeadingUnderscores (mem_dropTrailingUnderscores h))

/-- `normalizeCore l` is an infix of the collapsed list, so it has no double
underscore either. -/
theorem hasDoubleUnderscore_normalizeCore (l : List Char) :
    hasDoubleUnderscore (normalizeCore l) = false := by
  set v3 := collapseUnderscores (pyFilterAlnum (pyLowerChars (pyReplaceSpace l))) with hv3
  have hddv3 : hasDoubleUnderscore v3 = false := hasDoubleUnderscore_collapseUnderscores _
  -- dropLeadingUnderscores v3 is a suffix of v3
  obtain ⟨t, ht⟩ : ∃ t, t ++ dropLeadingUnderscores v3 = v3 :=
    List.dropWhile_suffix _
  -- normalizeCore l is a prefix of dropLeadingUnderscores v3
  obtain ⟨u, hu⟩ : ∃ u, u ++ (dropTrailingUnderscores (dropLeadingUnderscores v3)).reverse
      = (dropLeadingUnderscores v3).reverse := by
    rw [dropTrailingUnderscores, List.reverse_reverse]
    exact List.dropWhile_suffix _
  by_contra hdd
  have hdd' : hasDoubleUnderscore (normalizeCore l) = true := by
    revert hdd
    cases hasDoubleUnderscore (normalizeCore l) <;> simp
  obtain ⟨a, b, hab⟩ := (hasDoubleUnderscore_iff _).mp hdd'
  have hcore : normalizeCore l = dropTrailingUnderscores (dropLeadingUnderscores v3) := rfl
  have hpre : dropLeadingUnderscores v3 = (a ++ '_' :: '_' :: b) ++ u.reverse := by
    have := congrArg List.reverse hu
    rw [List.reverse_append, List.reverse_reverse, List.reverse_reverse] at this
    rw [← this, ← hcore, hab]
  have : v3 = (t ++ a) ++ '_' :: '_' :: (b ++ u.reverse) := by
    rw [← ht, hpre]
    simp
  have := (hasDoubleUnderscore_iff v3).mpr ⟨t ++ a, b ++ u.reverse, this⟩
  rw [hddv3] at this
  exact Bool.false_ne_true this

/-- The head of `normalizeCore l` is never an underscore. -/
theorem normalizeCore_head_ne {l : List Char} {c : Char} {rest : List Char}
    (h : normalizeCore l = c :: rest) : (c = '_') = False := by
  set dl := dropLeadingUnderscores (collapseUnderscores (pyFilterAlnum (pyLowerChars (pyReplaceSpace l)))) with hdl
  obtain ⟨u, hu⟩ : ∃ u, u ++ (dropTrailingUnderscores dl).reverse = dl.reverse := by
    rw [dropTrailingUnderscores, List.reverse_reverse]
    exact List.dropWhile_suffix _
  have hcore : normalizeCore l = dropTrailingUnderscores dl := rfl
  have hdl_eq : dl = (c :: rest) ++ u.reverse := by
    have := congrArg List.reverse hu
    rw [List.reverse_append, List.reverse_reverse, List.reverse_reverse] at this
    rw [← this, ← hcore, h]
  have hhead : dl = c :: (rest ++ u.reverse) := by rw [hdl_eq]; rfl
  have := @dropWhile_head_false (fun x => decide (x = '_')) _ _ _ hhead
  simpa using this

/-- The last character of `normalizeCore l` is never an underscore, phrased on
the reversed list. -/
theorem normalizeCore_last_ne {l : List Char} {c : Char} {rest : List Char}
    (h : (normalizeCore l).reverse = c :: rest) : (c = '_') = False := by
  have hrev : (normalizeCore l).reverse
      = (dropLeadingUnderscores (collapseUnderscores
          (pyFilterAlnum (pyLowerChars (pyReplaceSpace l))))).reverse.dropWhile
            (fun x => x = '_') := by
    rw [show normalizeCore l = dropTrailingUnderscores (dropLeadingUnderscores
      (collapseUnderscores (pyFilterAlnum (pyLowerChars (pyReplaceSpace l))))) from rfl,
      dropTrailingUnderscores, List.reverse_reverse]
  rw [hrev] at h
  have := dropWhile_head_false h
  simpa using this

/-- A list of already-normalized characters (alphanumeric-or-underscore,
lowercase-fixed, no spaces, no double underscore) passes the replace, lower,
filter and collapse stages unchanged. -/
theorem stages_fix {w : List Char}
    (hchars : ∀ c ∈ w, (c.isAlphanum || c = '_') = true ∧ Char.toLower c = c ∧ c ≠ ' ')
    (hdd : hasDoubleUnderscore w = false) :
    collapseUnderscores (pyFilterAlnum (pyLowerChars (pyReplaceSpace w))) = w := by
  have h1 : pyReplaceSpace w = w :=
    map_eq_self_of fun c hc => if_neg (hchars c hc).2.2
  have h2 : pyLowerChars w = w :=
    map_eq_self_of fun c hc => (hchars c hc).2.1
  have h3 : pyFilterAlnum w = w :=
    List.filter_eq_self.mpr fun c hc => (hchars c hc).1
  rw [h1, h2, h3]
  exact collapseUnderscores_eq_self w hdd

/-- Properties of the characters of the final normalized list: they are all
alphanumeric or underscore, lowercase-fixed, and not spaces. -/
theorem normalizeChars_chars {l : List Char} {c : Char}
    (h : c ∈ normalizeChars l) :
    (c.isAlphanum || c = '_') = true ∧ Char.toLower c = c ∧ c ≠ ' ' := by
  rw [normalizeChars] at h
  rcases hcore : normalizeCore l with _ | ⟨c0, rest⟩
  · rw [hcore] at h
    have hv : prependIfDigit (if ([] : List Char) = [] then "view".data else [])
        = "view".data := by decide
    rw [hv] at h
    fin_cases h <;> exact ⟨by decide, by decide, by decide⟩
  · rw [hcore] at h
    have hne : (c0 :: rest : List Char) ≠ [] := by simp
    simp only [if_neg hne] at h
    have hmem : c ∈ (c0 :: rest : List Char) ∨ c = '_' := by
      rw [prependIfDigit] at h
      split at h
      · rcases List.mem_cons.mp h with h1 | h2
        · exact Or.inr h1
        · exact Or.inl h2
      · exact Or.inl h
    rcases hmem with hm | rfl
    · have : c ∈ normalizeCore l := by rw [hcore]; exact hm
      exact pyFilterAlnum_pyLowerChars_mem (mem_normalizeCore this)
    · refine ⟨by decide, by decide, by decide⟩

theorem normalizeChars_idem (l : List Char) :
    normalizeChars (normalizeChars l) = normalizeChars l := by
  rcases hcore : normalizeCore l with _ | ⟨c, rest⟩
  · -- the stripped list is empty: the result is the literal fallback "view"
    have hw : normalizeChars l = "view".data := by
      rw [normalizeChars, hcore, if_pos rfl]
      decide
    rw [hw]
    decide
  · -- the stripped list is c :: rest
    have hne : (c :: rest : List Char) ≠ [] := by simp
    have hw : normalizeChars l = prependIfDigit (c :: rest) := by
      rw [normalizeChars, hcore, if_neg hne]
    have hchars : ∀ x ∈ normalizeChars l,
        (x.isAlphanum || x = '_') = true ∧ Char.toLower x = x ∧ x ≠ ' ' :=
      fun x hx => normalizeChars_chars hx
    have hcchars : ∀ x ∈ (c :: rest : List Char),
        (x.isAlphanum || x = '_') = true ∧ Char.toLower x = x ∧ x ≠ ' ' := by
      intro x hx
      have : x ∈ normalizeCore l := by rw [hcore]; exact hx
      exact pyFilterAlnum_pyLowerChars_mem (mem_normalizeCore this)
    have hddc : hasDoubleUnderscore (c :: rest) = false := by
      rw [← hcore]; exact hasDoubleUnderscore_normalizeCore l
    have hheadne : (c = '_') = False := normalizeCore_head_ne hcore
    have hlastne : ∀ x xs, (c :: rest).reverse = x :: xs → (x = '_') = False := by
      intro x xs hx
      refine @normalizeCore_last_ne l x xs ?_
      rw [hcore]; exact hx
    -- the trailing strip fixes c :: rest
    have hdropT : dropTrailingUnderscores (c :: rest) = c :: rest :=
      dropTrailingUnderscores_of_getLast hlastne
    have hdropL : dropLeadingUnderscores (c :: rest) = c :: rest :=
      dropLeadingUnderscores_of_head hheadne
    by_cases hdig : c.isDigit
    · -- underscore was prepended
      have hw2 : normalizeChars l = '_' :: c :: rest := by
        rw [hw, prependIfDigit, if_pos hdig]
      rw [hw2]
      have hddw : hasDoubleUnderscore ('_' :: c :: rest) = false := by
        rw [hasDoubleUnderscore]
        have hc : (c = '_') = False := hheadne
        simp only [Bool.or_eq_false_iff]
        constructor
        · simp [hc]
        · exact hddc
      have hstages := stages_fix
        (by
          intro x hx
          rcases List.mem_cons.mp hx with rfl | hx2
          · exact ⟨by decide, by decide, by decide⟩
          · exact hcchars x hx2)
        hddw
      rw [normalizeChars, normalizeCore, hstages]
      have hdropL2 : dropLeadingUnderscores ('_' :: c :: rest) = c :: rest := by
        rw [dropLeadingUnderscores, List.dropWhile_cons, if_pos (by simp)]
        exact hdropL
      rw [hdropL2, hdropT, if_neg hne, prependIfDigit, if_pos hdig]
    · -- no underscore was prepended
      have hw2 : normalizeChars l = c :: rest := by
        rw [hw, prependIfDigit, if_neg hdig]
      rw [hw2]
      have hstages := stages_fix hcchars hddc
      rw [normalizeChars, normalizeCore, hstages, hdropL, hdropT, if_neg hne,
        prependIfDigit, if_neg hdig]

/-- Claim C9.  The normalization step of `create_name` is idempotent: applying
it to its own output returns that output unchanged. -/
theorem claim_C9_normalize_idempotent (s : String) (w : String)
    (h : normalizeName s = w) : normalizeName w = w := by
  subst h
  have hidem := normalizeChars_idem s.data
  calc normalizeName (normalizeName s)
      = ⟨normalizeChars (normalizeChars s.data)⟩ := rfl
    _ = ⟨normalizeChars s.data⟩ := by rw [hidem]
    _ = normalizeName s := rfl

/-- Witness for C9: the already-normalized identifier `my_button_2` is fixed
by normalization. -/
theorem claim_C9_normalize_idempotent_witness :
    normalizeName "my_button_2" = "my_button_2" := by
  exact claim_C9_normalize_idempotent "My Button 2" "my_button_2" (by decide)

/-! ## Figma node data model (the fields the generator core reads)

Numbers carried by the document tree are Python floats; they are modelled as
exact rationals. -/

/-- `absoluteBoundingBox`: `{x, y, width, height}`. -/
structure Rect where
  x : ℚ
  y : ℚ
  width : ℚ
  height : ℚ
deriving DecidableEq

/-- One entry of `fillGeometry` / `strokeGeometry`: only its `path` data is
read. -/
structure Geometry where
  path : String
deriving DecidableEq

/-- A color `{r, g, b}` plus optional alpha `a` (read with `color.get('a', …)`). -/
structure FigmaColor where
  r : ℚ
  g : ℚ
  b : ℚ
  a : Option ℚ
deriving DecidableEq

/-- A gradient handle position `{x, y}`. -/
structure GPoint where
  x : ℚ
  y : ℚ
deriving DecidableEq

/-- One gradient stop `{position, color}`. -/
structure GradientStop where
  position : ℚ
  color : FigmaColor
deriving DecidableEq

/-- A fill or stroke graphic descriptor, by its `type` tag.  Each constructor
carries the fields the emitter reads for that type; `opacity` is optional
everywhere (`graphic.get('opacity', 1)`). -/
inductive Graphic where
  | solid (opacity : Option ℚ) (color : FigmaColor)
  | image (opacity : Option ℚ) (imageRef : String)
  | gradientLinear (opacity : Option ℚ) (handles : List GPoint) (stops : List GradientStop)
  | gradientRadial (opacity : Option ℚ) (handles : List GPoint) (stops : List GradientStop)
  | unsupported (opacity : Option ℚ) (typeName : String)
deriving DecidableEq

/-- `graphic.get('opacity', 1)`. -/
def Graphic.opacityD : Graphic → ℚ
  | .solid op _ => op.getD 1
  | .image op _ => op.getD 1
  | .gradientLinear op _ _ => op.getD 1
  | .gradientRadial op _ _ => op.getD 1
  | .unsupported op _ => op.getD 1

/-- The fields of a figma document node that the generator core reads.
Optional fields are read with `dict.get(key, default)` in the source. -/
structure FigmaNode where
  name : String
  absoluteBoundingBox : Option Rect
  fillGeometry : Option (List Geometry)
  fills : Option (List Graphic)
  strokeGeometry : Option (List Geometry)
  strokes : Option (List Graphic)
  strokeWeight : Option ℚ
deriving DecidableEq

/-- The default box `{'x': 0, 'y': 0, 'width': 0, 'height': 0}` used by
`DesignGenerator.bounds` when a node has no `absoluteBoundingBox`. -/
def zeroRect : Rect := ⟨0, 0, 0, 0⟩

/-! ## Claim C2: the bounds transform (`DesignGenerator.bounds`, lines 57–72) -/

/-- `DesignGenerator.bounds`: the box of the node relative to its parent's
absolute origin, scaled by `config.scale`.  A node without a parent uses the
zero origin. -/
def bounds (figmaNode : FigmaNode) (parent : Option FigmaNode) (scale : ℚ) :
    ℚ × ℚ × ℚ × ℚ :=
  let pstart : ℚ × ℚ :=
    match parent with
    | none => (0, 0)
    | some p =>
      let pb := p.absoluteBoundingBox.getD zeroRect
      (pb.x, pb.y)
  let b := figmaNode.absoluteBoundingBox.getD zeroRect
  ((b.x - pstart.1) * scale, (b.y - pstart.2) * scale, b.width * scale, b.height * scale)

/-- Claim C2.  For a node with absolute box `(cx, cy, cw, ch)` the bounds
computation returns exactly `((cx - px) * s, (cy - py) * s, cw * s, ch * s)`
against a parent whose absolute box origin is `(px, py)`, and treats a missing
parent as the zero origin. -/
theorem claim_C2_bounds_transform (node : FigmaNode) (cx cy cw ch : ℚ)
    (hbb : node.absoluteBoundingBox = some ⟨cx, cy, cw, ch⟩) (scale : ℚ) :
    (∀ (p : FigmaNode) (px py pw ph : ℚ),
        p.absoluteBoundingBox = some ⟨px, py, pw, ph⟩ →
        bounds node (some p) scale
          = ((cx - px) * scale, (cy - py) * scale, cw * scale, ch * scale))
      ∧ bounds node none scale = (cx * scale, cy * scale, cw * scale, ch * scale) := by
  constructor
  · intro p px py pw ph hp
    simp [bounds, hbb, hp]
  · simp [bounds, hbb]

/-- Witness for C2: child box `(110, 60, 10, 20)`, parent box at `(100, 50)`,
scale `2` yields `(20, 20, 20, 40)`. -/
theorem claim_C2_bounds_transform_witness :
    bounds ⟨"child", some ⟨110, 60, 10, 20⟩, none, none, none, none, none⟩
        (some ⟨"parent", some ⟨100, 50, 500, 500⟩, none, none, none, none, none⟩) 2
      = (20, 20, 20, 40) := by
  have h := claim_C2_bounds_transform
    ⟨"child", some ⟨110, 60, 10, 20⟩, none, none, none, none, none⟩
    110 60 10 20 rfl 2
  rw [h.1 ⟨"parent", some ⟨100, 50, 500, 500⟩, none, none, none, none, none⟩
    100 50 500 500 rfl]
  norm_num

/-! ## The SVG path emitter (`SvgGenerator`, vector_generator.py)

The emitted markup is modelled structurally, one constructor per line shape
the emitter yields.  Numeric color components are truncated with `int(x * 255)`
(`pyTrunc`); the `r` attribute of a radial gradient is the square root of the
`rSq` field (Python computes `(...) ** .5`; the radicand is kept exact).

The source reads `figma_node["absoluteBoundingBox"]` by direct subscript in
three places — `create_svg_file` line 26, the image arm of `generate_path`
line 71, and the widget lines of `VectorGenerator.generate_design` line 127 —
raising `KeyError` when the key is absent.  These fallible reads are modelled
with `Except`: the functions return `.error keyErrorBox` exactly where the
program would raise. -/

/-- Python `int(q)`: truncation toward zero. -/
def pyTrunc (q : ℚ) : ℤ :=
  if 0 ≤ q then ⌊q⌋ else ⌈q⌉

/-- The `KeyError` raised by `figma_node["absoluteBoundingBox"]` on a node
without that key. -/
def keyErrorBox : String := "KeyError: absoluteBoundingBox"

instance {e a : Type} [DecidableEq e] [DecidableEq a] : DecidableEq (Except e a)
  | .error e1, .error e2 =>
    if h : e1 = e2 then .isTrue (by rw [h])
    else .isFalse (fun hh => h (Except.error.inj hh))
  | .error _, .ok _ => .isFalse (fun hh => Except.noConfusion hh)
  | .ok _, .error _ => .isFalse (fun hh => Except.noConfusion hh)
  | .ok a1, .ok a2 =>
    if h : a1 = a2 then .isTrue (by rw [h])
    else .isFalse (fun hh => h (Except.ok.inj hh))

/-- The fill attribute of an emitted path: either a hex color (stored as its
three truncated 0–255 components) or a reference `url(#gradient{id})`. -/
inductive FillStyle where
  | colorHex (r g b : ℤ)
  | gradientRef (idNum : Nat)
deriving DecidableEq

/-- One line of the generated SVG body, as yielded by
`SvgGenerator.generate_path`. -/
inductive SvgLine where
  | path (fill : FillStyle) (strokeWidth : ℚ) (fillOpacity strokeOpacity : ℚ) (d : String)
  | image (width height : ℚ) (href : String) (idNum : Nat) (opacity : ℚ)
  | linGradOpen (idNum : Nat) (x1 y1 x2 y2 : ℚ)
  | stop (offset : ℚ) (r g b : ℤ) (stopOpacity : ℚ)
  | gradClose
  | radGradOpen (idNum : Nat) (cx cy : ℚ) (rSq : ℚ)
deriving DecidableEq

/-- The truncated 0–255 components of a normalized color
(`'#{:02x}{:02x}{:02x}'.format(*map(lambda x: int(x * 255), color))`). -/
def colorBytes (c : FigmaColor) : ℤ × ℤ × ℤ :=
  (pyTrunc (c.r * 255), pyTrunc (c.g * 255), pyTrunc (c.b * 255))

/-- The `<stop .../>` line for one gradient stop under layer opacity `op`
(`stop_opacity = opacity * color.get('a', 1)`). -/
def stopLine (op : ℚ) (st : GradientStop) : SvgLine :=
  .stop st.position (colorBytes st.color).1 (colorBytes st.color).2.1
    (colorBytes st.color).2.2 (op * st.color.a.getD 1)

/-- `SvgGenerator.generate_path` (vector_generator.py lines 43–105): emit the
markup lines for one `(path_data, graphic)` pair.  The class counter
`graphic_counter` is threaded explicitly; it is incremented on entry.  Returns
the emitted lines, the logged warnings and the new counter value; the image
arm subscripts `figma_node['absoluteBoundingBox']` (line 71) and raises when
the key is absent. -/
def generate_path (figmaNode : FigmaNode) (pathData : String) (graphic : Graphic)
    (counter : Nat) : Except String (List SvgLine × List String × Nat) :=
  let c := counter + 1
  let strokeWidth := figmaNode.strokeWeight.getD 0
  match graphic with
  | .solid gop color =>
    let opacity := (gop.getD 1) * color.a.getD 0
    let bytes := colorBytes color
    .ok ([.path (.colorHex bytes.1 bytes.2.1 bytes.2.2) strokeWidth opacity opacity pathData],
         [], c)
  | .image gop imageRef =>
    match figmaNode.absoluteBoundingBox with
    | none => .error keyErrorBox
    | some bb =>
      .ok ([.image bb.width bb.height ("../images/" ++ imageRef ++ ".png") c (gop.getD 1)],
           [], c)
  | .gradientLinear gop handles stops =>
    let opacity := gop.getD 1
    let p0 := handles.getD 0 ⟨0, 0⟩
    let p1 := handles.getD 1 ⟨0, 0⟩
    .ok (.linGradOpen c p0.x p0.y p1.x p1.y
           :: stops.map (stopLine opacity)
           ++ [.gradClose, .path (.gradientRef c) strokeWidth opacity opacity pathData],
         [], c)
  | .gradientRadial gop handles stops =>
    let opacity := gop.getD 1
    let p0 := handles.getD 0 ⟨0, 0⟩
    let p1 := (handles.getLast?).getD ⟨0, 0⟩
    let rSq := (p0.x - p1.x) ^ 2 + (p0.y - p1.y) ^ 2
    .ok (.radGradOpen c p0.x p0.y rSq
           :: stops.map (stopLine opacity)
           ++ [.gradClose, .path (.gradientRef c) strokeWidth opacity opacity pathData],
         [], c)
  | .unsupported _ typeName =>
    .ok ([], ["Unknown graphic type : " ++ typeName], c)

/-- The fills-then-strokes loop body of `SvgGenerator.create_svg_file`
(lines 29–37): emit the pairs in order, threading the counter, concatenating
lines and warnings; a raise inside `generate_path` aborts the loop. -/
def processPairs (figmaNode : FigmaNode) :
    List (Geometry × Graphic) → Nat → Except String (List SvgLine × List String × Nat)
  | [], counter => .ok ([], [], counter)
  | (geo, g) :: rest, counter =>
    match generate_path figmaNode geo.path g counter with
    | .error e => .error e
    | .ok r1 =>
      match processPairs figmaNode rest r1.2.2 with
      | .error e => .error e
      | .ok r2 => .ok (r1.1 ++ r2.1, r1.2.1 ++ r2.2.1, r2.2.2)

/-- The index-aligned `(geometry, graphic)` pairs of a node:
`zip(figma_node.get('fillGeometry', []), figma_node.get('fills', []))`
followed by
`zip(figma_node.get('strokeGeometry', []), figma_node.get('strokes', []))`. -/
def svgPairs (figmaNode : FigmaNode) : List (Geometry × Graphic) :=
  (figmaNode.fillGeometry.getD []).zip (figmaNode.fills.getD [])
    ++ (figmaNode.strokeGeometry.getD []).zip (figmaNode.strokes.getD [])

/-- `SvgGenerator.create_svg_file` (lines 18–41), reduced to the emitted body
lines: the constant XML header and footer and the file write are not
modelled.  Line 26 subscripts `figma_node["absoluteBoundingBox"]` before the
loops run (into an otherwise unused local), so a node without that key raises
`KeyError` there and zero pairs are processed.  Returns the lines, warnings
and updated `graphic_counter`. -/
def create_svg_file (figmaNode : FigmaNode) (counter : Nat) :
    Except String (List SvgLine × List String × Nat) :=
  match figmaNode.absoluteBoundingBox with
  | none => .error keyErrorBox
  | some _ => processPairs figmaNode (svgPairs figmaNode) counter

/-! ## Claim C3: solid fill opacity composition

The source line is `opacity *= color.get('a', 0)` (vector_generator.py line
61): the default for a missing alpha is `0`, not `1`. -/

/-- The fill-opacity of the first emitted path line, if any. -/
def firstFillOpacity (r : Except String (List SvgLine × List String × Nat)) : Option ℚ :=
  match r with
  | .ok (SvgLine.path _ _ fillOpacity _ _ :: _, _, _) => some fillOpacity
  | _ => none

/-- A minimal node (with a bounding box) for concrete evaluations. -/
def sampleNode : FigmaNode :=
  ⟨"vec", some ⟨0, 0, 10, 10⟩, none, none, none, none, none⟩

/-- Counterexample to C3 as stated: for a solid graphic with opacity `1/2`
whose color has no alpha entry, the claim predicts emitted opacity
`1/2 × 1 = 1/2`, but the code emits `1/2 × 0 = 0`. -/
theorem claim_C3_counterexample :
    firstFillOpacity
        (generate_path sampleNode "d" (.solid (some (1/2)) ⟨1, 1, 1, none⟩) 0) = some 0
      ∧ (0 : ℚ) ≠ 1/2 * 1 := by
  constructor
  · show some ((((some (1/2) : Option ℚ)).getD 1) * ((none : Option ℚ).getD 0)) = some 0
    norm_num
  · norm_num

/-- Claim C3, amended.  For every solid-kind graphic the emitted opacity
(both fill and stroke opacity of the single emitted path) equals the graphic
opacity (default `1` when absent) multiplied by the fill color's alpha, where
a missing alpha defaults to `0`; in particular a solid graphic whose color has
no alpha is emitted with opacity `0`.  The solid arm never raises. -/
theorem claim_C3_solid_opacity (node : FigmaNode) (pathData : String)
    (gop : Option ℚ) (color : FigmaColor) (c : Nat) :
    generate_path node pathData (.solid gop color) c
      = .ok ([.path (.colorHex (colorBytes color).1 (colorBytes color).2.1
                 (colorBytes color).2.2)
              (node.strokeWeight.getD 0)
              ((gop.getD 1) * color.a.getD 0) ((gop.getD 1) * color.a.getD 0) pathData],
             [], c + 1)
    ∧ (color.a = none → (gop.getD 1) * color.a.getD 0 = 0) := by
  constructor
  · rfl
  · intro ha
    rw [ha]
    simp

/-- Witness for the amended C3: color alpha `2/5` under graphic opacity `1/2`
emits opacity `1/5` (that is, `0.4 × 0.5 = 0.2`). -/
theorem claim_C3_solid_opacity_witness :
    generate_path sampleNode "d" (.solid (some (1/2)) ⟨1, 0, 0, some (2/5)⟩) 0
      = .ok ([.path (.colorHex 255 0 0) 0 (1/5) (1/5) "d"], [], 1) := by
  have h := (claim_C3_solid_opacity sampleNode "d" (some (1/2)) ⟨1, 0, 0, some (2/5)⟩ 0).1
  rw [h]
  norm_num [colorBytes, pyTrunc, sampleNode]

/-! ## Claim C5: unsupported graphic kinds degrade gracefully -/

/-- Processing a concatenation of pair lists, when the first list processes
without raising, processes the second from the updated counter, concatenating
lines and warnings (and propagating any raise of the second list). -/
theorem processPairs_append (node : FigmaNode) :
    ∀ (l1 l2 : List (Geometry × Graphic)) (c : Nat)
      (r1 : List SvgLine × List String × Nat),
    processPairs node l1 c = .ok r1 →
    processPairs node (l1 ++ l2) c
      = (processPairs node l2 r1.2.2).map
          (fun r2 => (r1.1 ++ r2.1, r1.2.1 ++ r2.2.1, r2.2.2))
  | [], l2, c, r1, h => by
    simp only [processPairs, Except.ok.injEq] at h
    subst h
    rw [List.nil_append]
    cases hp : processPairs node l2 c with
    | error e => rfl
    | ok r2 => simp [Except.map]
  | (geo, g) :: l1, l2, c, r1, h => by
    rw [List.cons_append]
    simp only [processPairs] at h ⊢
    cases hg : generate_path node geo.path g c with
    | error e =>
      rw [hg] at h
      exact absurd h (by simp)
    | ok rg =>
      rw [hg] at h
      have h' : (match processPairs node l1 rg.2.2 with
                 | .error e => (.error e : Except String (List SvgLine × List String × Nat))
                 | .ok r2 => .ok (rg.1 ++ r2.1, rg.2.1 ++ r2.2.1, r2.2.2)) = .ok r1 := h
      cases hp : processPairs node l1 rg.2.2 with
      | error e =>
        rw [hp] at h'
        exact absurd h' (by simp)
      | ok rr =>
        rw [hp] at h'
        simp only [Except.ok.injEq] at h'
        subst h'
        simp only [hg]
        rw [processPairs_append node l1 l2 rg.2.2 rr hp]
        cases hq : processPairs node l2 rr.2.2 with
        | error e => simp [Except.map]
        | ok r2 => simp [Except.map, List.append_assoc]

/-- Claim C5.  A `(geometry, graphic)` pair whose graphic kind is not
SOLID / IMAGE / GRADIENT_LINEAR / GRADIENT_RADIAL yields zero markup lines and
one warning (and no raise), and the surrounding pairs of the node are emitted
exactly as the loop reaches them: the pairs before it, then (with the counter
advanced past the unsupported pair) the pairs after it. -/
theorem claim_C5_unsupported_graceful (node : FigmaNode)
    (pre suf : List (Geometry × Graphic)) (geo : Geometry)
    (gop : Option ℚ) (typeName : String) (c : Nat)
    (rPre rSuf : List SvgLine × List String × Nat)
    (hpre : processPairs node pre c = .ok rPre)
    (hsuf : processPairs node suf (rPre.2.2 + 1) = .ok rSuf) :
    generate_path node geo.path (.unsupported gop typeName) c
        = .ok ([], ["Unknown graphic type : " ++ typeName], c + 1)
      ∧ processPairs node (pre ++ (geo, .unsupported gop typeName) :: suf) c
          = .ok (rPre.1 ++ rSuf.1,
                 rPre.2.1 ++ ("Unknown graphic type : " ++ typeName) :: rSuf.2.1,
                 rSuf.2.2) := by
  refine ⟨rfl, ?_⟩
  rw [processPairs_append node pre ((geo, .unsupported gop typeName) :: suf) c rPre hpre]
  have hgen : generate_path node geo.path (Graphic.unsupported gop typeName) rPre.2.2
      = .ok ([], ["Unknown graphic type : " ++ typeName], rPre.2.2 + 1) := rfl
  simp only [processPairs, hgen, hsuf, Except.map]
  simp

/-- Witness for C5: between two other unsupported pairs, an unsupported pair
emits nothing, records one warning, and the loop continues. -/
theorem claim_C5_unsupported_graceful_witness :
    processPairs sampleNode
        ([((⟨"pa"⟩ : Geometry), Graphic.unsupported none "A")]
          ++ ((⟨"pu"⟩ : Geometry), Graphic.unsupported none "U")
          :: [((⟨"pb"⟩ : Geometry), Graphic.unsupported none "B")]) 0
      = .ok ([], ["Unknown graphic type : A", "Unknown graphic type : U",
                  "Unknown graphic type : B"], 3) := by
  have h := claim_C5_unsupported_graceful sampleNode
    [((⟨"pa"⟩ : Geometry), Graphic.unsupported none "A")]
    [((⟨"pb"⟩ : Geometry), Graphic.unsupported none "B")]
    ⟨"pu"⟩ none "U" 0
    ([], ["Unknown graphic type : A"], 1) ([], ["Unknown graphic type : B"], 3)
    (by decide) (by decide)
  rw [h.2]
  decide

/-! ## Claim C10: index-aligned pairing of geometries and graphics -/

/-- Claim C10.  For a node carrying an `absoluteBoundingBox`, the markup
writer processes exactly `min |fillGeometry| |fills|` fill pairs followed by
`min |strokeGeometry| |strokes|` stroke pairs, index-aligned, in that order;
excess entries of the longer list of each pair are ignored, and a missing
list behaves as the empty list.  A node without a bounding box raises
`KeyError` at vector_generator.py line 26 before any pair is processed. -/
theorem claim_C10_pair_alignment (node : FigmaNode) (c : Nat) :
    (node.absoluteBoundingBox = none → create_svg_file node c = .error keyErrorBox)
    ∧ (∀ bb : Rect, node.absoluteBoundingBox = some bb →
        create_svg_file node c = processPairs node (svgPairs node) c)
    ∧ (svgPairs node).length
        = min (node.fillGeometry.getD []).length (node.fills.getD []).length
          + min (node.strokeGeometry.getD []).length (node.strokes.getD []).length
    ∧ (∀ i : Nat,
        i < min (node.fillGeometry.getD []).length (node.fills.getD []).length →
        ∃ g f, (node.fillGeometry.getD [])[i]? = some g
          ∧ (node.fills.getD [])[i]? = some f
          ∧ (svgPairs node)[i]? = some (g, f))
    ∧ (∀ j : Nat,
        j < min (node.strokeGeometry.getD []).length (node.strokes.getD []).length →
        ∃ g s, (node.strokeGeometry.getD [])[j]? = some g
          ∧ (node.strokes.getD [])[j]? = some s
          ∧ (svgPairs node)[min (node.fillGeometry.getD []).length
              (node.fills.getD []).length + j]? = some (g, s))
    ∧ (node.fills = none →
        svgPairs node = (node.strokeGeometry.getD []).zip (node.strokes.getD [])) := by
  refine ⟨?_, ?_, ?_, ?_, ?_, ?_⟩
  · intro hb
    simp [create_svg_file, hb]
  · intro bb hb
    simp [create_svg_file, hb]
  · simp [svgPairs, List.length_zip]
  · intro i hi
    have hif : i < (node.fillGeometry.getD []).length := by omega
    have hil : i < (node.fills.getD []).length := by omega
    refine ⟨(node.fillGeometry.getD [])[i], (node.fills.getD [])[i], by simp, by simp, ?_⟩
    rw [svgPairs, List.getElem?_append_left (by simp only [List.length_zip]; omega)]
    apply List.getElem?_zip_eq_some.mpr
    exact ⟨by simp, by simp⟩
  · intro j hj
    have hjg : j < (node.strokeGeometry.getD []).length := by omega
    have hjs : j < (node.strokes.getD []).length := by omega
    refine ⟨(node.strokeGeometry.getD [])[j], (node.strokes.getD [])[j], by simp, by simp, ?_⟩
    rw [svgPairs, List.getElem?_append_right (by simp only [List.length_zip]; omega)]
    have hlen : ((node.fillGeometry.getD []).zip (node.fills.getD [])).length
        = min (node.fillGeometry.getD []).length (node.fills.getD []).length := by
      simp [List.length_zip]
    rw [hlen, Nat.add_sub_cancel_left]
    apply List.getElem?_zip_eq_some.mpr
    exact ⟨by simp, by simp⟩
  · intro hf
    simp [svgPairs, hf]

/-- A concrete node with a bounding box, two fill geometries but one fill,
and one stroke pair: the excess fill geometry is ignored. -/
def nodeC10 : FigmaNode :=
  ⟨"v", some ⟨0, 0, 5, 5⟩, some [⟨"fp1"⟩, ⟨"fp2"⟩], some [.solid none ⟨1, 1, 1, none⟩],
   some [⟨"sp1"⟩], some [.image none "img"], none⟩

/-- Witness for C10: on `nodeC10` (which carries a box, so line 26 does not
raise) exactly `min 2 1 + min 1 1 = 2` pairs are processed, index-aligned:
the fill pair at index `0`, the stroke pair after the fill block. -/
theorem claim_C10_pair_alignment_witness :
    create_svg_file nodeC10 0 = processPairs nodeC10 (svgPairs nodeC10) 0
      ∧ (svgPairs nodeC10).length = 2
      ∧ (svgPairs nodeC10)[0]? = some (⟨"fp1"⟩, .solid none ⟨1, 1, 1, none⟩) := by
  have h := claim_C10_pair_alignment nodeC10 0
  obtain ⟨g, f, hg, hf, hp⟩ := h.2.2.2.1 0 (by decide)
  have hg2 : some (⟨"fp1"⟩ : Geometry) = some g := by
    rw [← hg]; rfl
  have hf2 : some (Graphic.solid none ⟨1, 1, 1, none⟩) = some f := by
    rw [← hf]; rfl
  refine ⟨h.2.1 ⟨0, 0, 5, 5⟩ rfl, ?_, ?_⟩
  · rw [h.2.2.1]; decide
  · rw [hp, ← Option.some_inj.mp hg2, ← Option.some_inj.mp hf2]

/-! ## Claim C8: radial gradient center and radius

The source computes `radius = ((p0.x - p1.x) ** 2 + (p0.y - p1.y) ** 2) ** .5`
with `p0, p1 = gradient[0], gradient[-1]`; the emitted `radGradOpen` line
stores the exact radicand `rSq`, and the emitted radius is its nonnegative
square root. -/

/-- Does an emitter call return without raising? -/
def exceptIsOk (e : Except String (List SvgLine × List String × Nat)) : Bool :=
  match e with
  | .ok _ => true
  | .error _ => false

/-- The lines of a returned emitter result (empty on a raise). -/
def okLines (e : Except String (List SvgLine × List String × Nat)) : List SvgLine :=
  match e with
  | .ok r => r.1
  | .error _ => []

/-- Claim C8.  For every radial-gradient graphic the emitter returns without
raising, the emitted gradient center equals the first handle point, and the
emitted radius — the nonnegative real whose square is the stored radicand —
equals the Euclidean distance between the first and last handle points. -/
theorem claim_C8_radial_gradient (node : FigmaNode) (pathData : String)
    (gop : Option ℚ) (handles : List GPoint) (stops : List GradientStop) (c : Nat)
    (p0 pl : GPoint) (hh : handles.head? = some p0) (hl : handles.getLast? = some pl) :
    exceptIsOk (generate_path node pathData (.gradientRadial gop handles stops) c) = true
      ∧ (okLines (generate_path node pathData (.gradientRadial gop handles stops) c)).head?
          = some (.radGradOpen (c + 1) p0.x p0.y
              ((p0.x - pl.x) ^ 2 + (p0.y - pl.y) ^ 2))
      ∧ ∀ r : ℝ, 0 ≤ r →
          r ^ 2 = (((p0.x - pl.x) ^ 2 + (p0.y - pl.y) ^ 2 : ℚ) : ℝ) →
          r = Real.sqrt (((p0.x : ℝ) - (pl.x : ℝ)) ^ 2 + ((p0.y : ℝ) - (pl.y : ℝ)) ^ 2) := by
  refine ⟨rfl, ?_, ?_⟩
  · rcases handles with _ | ⟨h0, hrest⟩
    · simp at hh
    · have h0eq : h0 = p0 := by simpa using hh
      have hgetD : ((h0 :: hrest : List GPoint).getLast?).getD ⟨0, 0⟩ = pl := by
        rw [hl]
        rfl
      subst h0eq
      simp only [generate_path, okLines, List.head?_cons, Option.some.injEq]
      rw [hgetD]
      simp [List.getD_cons_zero]
  · intro r hr h2
    have hcast : (((p0.x - pl.x) ^ 2 + (p0.y - pl.y) ^ 2 : ℚ) : ℝ)
        = ((p0.x : ℝ) - (pl.x : ℝ)) ^ 2 + ((p0.y : ℝ) - (pl.y : ℝ)) ^ 2 := by
      push_cast
      ring
    rw [← hcast, ← h2, Real.sqrt_sq hr]

/-- Witness for C8: handles at `(0,0)` and `(3,4)` give center `(0,0)`,
radicand `25` and radius `5`. -/
theorem claim_C8_radial_gradient_witness :
    (okLines (generate_path sampleNode "d" (.gradientRadial none [⟨0, 0⟩, ⟨3, 4⟩] []) 0)).head?
        = some (.radGradOpen 1 0 0 25)
      ∧ (5 : ℝ) = Real.sqrt (((0 : ℝ) - 3) ^ 2 + ((0 : ℝ) - 4) ^ 2) := by
  have h := claim_C8_radial_gradient sampleNode "d" none [⟨0, 0⟩, ⟨3, 4⟩] [] 0
    ⟨0, 0⟩ ⟨3, 4⟩ rfl rfl
  constructor
  · rw [h.2.1]
    norm_num
  · have h5 := h.2.2 5 (by norm_num) (by push_cast; norm_num)
    simpa using h5

/-! ## Claims C7: the vector pass and its counters

The source has two distinct class-level counters: `SvgGenerator.graphic_counter`
(incremented once per `generate_path` call, used for `gradient{N}` / `img{N}`
markup ids) and `VectorGenerator.svg_counter` (incremented once per vector
node, used for `file{N}.svg` filenames). -/

/-- The two process-wide counters: `VectorGenerator.svg_counter` and
`SvgGenerator.graphic_counter`. -/
structure VecState where
  svgCounter : Nat
  graphicCounter : Nat
deriving DecidableEq

/-- `VectorGenerator.generate_design` (vector_generator.py lines 114–134),
reduced to its file-emission effects: increments `svg_counter` (line 120),
derives the filename `file{svg_counter}.svg` (line 122), writes the svg body
via `create_svg_file` (line 125, which may raise `KeyError` at its line 26 and
advances `graphic_counter`), then re-reads `figma_node['absoluteBoundingBox']`
for the widget geometry (line 127, raising when absent — unreachable as an
error here because `create_svg_file` already checked the same key).  The PyQt
widget code lines it also yields are not modelled (no claim reads them). -/
def vector_generate_design (node : FigmaNode) (s : VecState) :
    Except String ((String × List SvgLine × List String) × VecState) :=
  let n := s.svgCounter + 1
  let svgFilename := "file" ++ pyNatRepr n ++ ".svg"
  match create_svg_file node s.graphicCounter with
  | .error e => .error e
  | .ok r =>
    match node.absoluteBoundingBox with
    | none => .error keyErrorBox
    | some _ => .ok ((svgFilename, r.1, r.2.1), ⟨n, r.2.2⟩)

/-- Modelled from the spec: the design pass visits the vector nodes of one
generation run in document order (the driving FactoryGenerator is not under
src/); each visit runs `VectorGenerator.generate_design` on the shared
counter state, and an uncaught raise aborts the run. -/
def runVectors : List FigmaNode → VecState →
    Except String (List (String × List SvgLine × List String) × VecState)
  | [], s => .ok ([], s)
  | node :: nodes, s =>
    match vector_generate_design node s with
    | .error e => .error e
    | .ok r =>
      match runVectors nodes r.2 with
      | .error e => .error e
      | .ok rs => .ok (r.1 :: rs.1, rs.2)

/-- The markup-internal id of a line, when the line defines one
(`gradient{N}` of a gradient definition, `img{N}` of an image). -/
def SvgLine.defIdNum : SvgLine → Option Nat
  | .image _ _ _ idNum _ => some idNum
  | .linGradOpen idNum _ _ _ _ => some idNum
  | .radGradOpen idNum _ _ _ => some idNum
  | _ => none

/-- The markup-internal ids defined by a list of lines, in order. -/
def idNums (lines : List SvgLine) : List Nat :=
  lines.filterMap SvgLine.defIdNum

/-- All markup-internal ids emitted across a completed run, in emission
order. -/
def runIdNums : List (String × List SvgLine × List String) → List Nat
  | [] => []
  | e :: es => idNums e.2.1 ++ runIdNums es

/-- The counter values drawn across a run in emission order: for each vector
node its filename number (drawn at line 120 before anything can raise), then
the markup-id numbers inside its svg body; a raise aborts the rest of the
run. -/
def drawnNums : List FigmaNode → VecState → List Nat
  | [], _ => []
  | node :: nodes, s =>
    match vector_generate_design node s with
    | .error _ => [s.svgCounter + 1]
    | .ok r => (s.svgCounter + 1) :: (idNums r.1.2.1 ++ drawnNums nodes r.2)

/-- A node with a bounding box and a single linear-gradient fill. -/
def nodeC7 : FigmaNode :=
  ⟨"v", some ⟨0, 0, 1, 1⟩, some [⟨"p"⟩],
   some [.gradientLinear none [⟨0, 0⟩, ⟨1, 1⟩] []], none, none, none⟩

/-- Counterexample to C7 as stated: in a fresh run over one vector node (with
a bounding box, so nothing raises) carrying one gradient fill, the filename is
`file1.svg` and the gradient id is `gradient1` — the filename number and the
markup id number are both `1`.  A single process-wide counter serving both
purposes would never hand out the same value twice, so the combined draw
sequence `[1, 1]` refutes the claim. -/
theorem claim_C7_counterexample :
    vector_generate_design nodeC7 ⟨0, 0⟩
        = .ok (("file1.svg",
                [.linGradOpen 1 0 0 1 1, .gradClose,
                 .path (.gradientRef 1) 0 1 1 "p"],
                []), ⟨1, 1⟩)
      ∧ idNums [.linGradOpen 1 0 0 1 1, .gradClose, .path (.gradientRef 1) 0 1 1 "p"] = [1]
      ∧ drawnNums [nodeC7] ⟨0, 0⟩ = [1, 1]
      ∧ ¬ (drawnNums [nodeC7] ⟨0, 0⟩).Nodup := by
  refine ⟨by decide, by decide, by decide, by decide⟩

theorem idNums_stops (o : ℚ) : ∀ (stops : List GradientStop),
    idNums (stops.map (stopLine o)) = []
  | [] => rfl
  | _ :: stops => idNums_stops o stops

theorem idNums_append (l1 l2 : List SvgLine) :
    idNums (l1 ++ l2) = idNums l1 ++ idNums l2 :=
  List.filterMap_append l1 l2 SvgLine.defIdNum

/-- When `generate_path` returns, it has advanced the counter by one, and the
only markup id it can have defined is that new counter value. -/
theorem generate_path_ids (node : FigmaNode) (pathData : String) (g : Graphic) (c : Nat)
    (r : List SvgLine × List String × Nat)
    (h : generate_path node pathData g c = .ok r) :
    r.2.2 = c + 1 ∧ (idNums r.1 = [] ∨ idNums r.1 = [c + 1]) := by
  cases g with
  | solid op color =>
    simp only [generate_path, Except.ok.injEq] at h
    subst h
    exact ⟨rfl, Or.inl rfl⟩
  | image op ref =>
    simp only [generate_path] at h
    cases hbb : node.absoluteBoundingBox with
    | none =>
      rw [hbb] at h
      exact absurd h (by simp)
    | some bb =>
      rw [hbb] at h
      simp only [Except.ok.injEq] at h
      subst h
      exact ⟨rfl, Or.inr rfl⟩
  | gradientLinear op handles stops =>
    simp only [generate_path, Except.ok.injEq] at h
    subst h
    refine ⟨rfl, Or.inr ?_⟩
    show idNums (.linGradOpen (c + 1) _ _ _ _
      :: stops.map (stopLine (op.getD 1)) ++ [.gradClose, .path _ _ _ _ _]) = [c + 1]
    rw [show ∀ (a : SvgLine) (l1 l2 : List SvgLine), (a :: l1 ++ l2) = [a] ++ (l1 ++ l2)
      from fun _ _ _ => rfl, idNums_append, idNums_append, idNums_stops]
    rfl
  | gradientRadial op handles stops =>
    simp only [generate_path, Except.ok.injEq] at h
    subst h
    refine ⟨rfl, Or.inr ?_⟩
    show idNums (.radGradOpen (c + 1) _ _ _
      :: stops.map (stopLine (op.getD 1)) ++ [.gradClose, .path _ _ _ _ _]) = [c + 1]
    rw [show ∀ (a : SvgLine) (l1 l2 : List SvgLine), (a :: l1 ++ l2) = [a] ++ (l1 ++ l2)
      from fun _ _ _ => rfl, idNums_append, idNums_append, idNums_stops]
    rfl
  | unsupported op ty =>
    simp only [generate_path, Except.ok.injEq] at h
    subst h
    exact ⟨rfl, Or.inl rfl⟩

/-- When the pair loop returns, it has only moved the markup counter forward;
every id it defined lies strictly between the incoming counter and the final
one, and ids are emitted in strictly increasing order. -/
theorem processPairs_ids (node : FigmaNode) :
    ∀ (ps : List (Geometry × Graphic)) (c : Nat)
      (r : List SvgLine × List String × Nat),
    processPairs node ps c = .ok r →
    c ≤ r.2.2 ∧ (∀ i ∈ idNums r.1, c < i ∧ i ≤ r.2.2)
      ∧ List.Pairwise (· < ·) (idNums r.1)
  | [], c, r, h => by
    simp only [processPairs, Except.ok.injEq] at h
    subst h
    simp [idNums]
  | (geo, g) :: ps, c, r, h => by
    simp only [processPairs] at h
    cases hg : generate_path node geo.path g c with
    | error e =>
      rw [hg] at h
      exact absurd h (by simp)
    | ok rg =>
      rw [hg] at h
      have h' : (match processPairs node ps rg.2.2 with
                 | .error e => (.error e : Except String (List SvgLine × List String × Nat))
                 | .ok r2 => .ok (rg.1 ++ r2.1, rg.2.1 ++ r2.2.1, r2.2.2)) = .ok r := h
      cases hp : processPairs node ps rg.2.2 with
      | error e =>
        rw [hp] at h'
        exact absurd h' (by simp)
      | ok rr =>
        rw [hp] at h'
        simp only [Except.ok.injEq] at h'
        subst h'
        obtain ⟨hg1, hg2⟩ := generate_path_ids node geo.path g c rg hg
        obtain ⟨hp1, hp2, hp3⟩ := processPairs_ids node ps rg.2.2 rr hp
        simp only [idNums_append]
        have hmem : ∀ i ∈ idNums rg.1, i = c + 1 := by
          rcases hg2 with h2 | h2 <;> rw [h2] <;> simp
        refine ⟨by omega, ?_, ?_⟩
        · intro i hi
          rcases List.mem_append.mp hi with h1 | h2
          · have := hmem i h1
            omega
          · have := hp2 i h2
            omega
        · apply List.pairwise_append.mpr
          refine ⟨?_, hp3, ?_⟩
          · rcases hg2 with h2 | h2 <;> rw [h2] <;> simp
          · intro a ha b hb
            have h1 := hmem a ha
            have h2 := (hp2 b hb).1
            omega

/-- Inversion of a returning `vector_generate_design` call: the pair loop
returned, the filename is `file{svg_counter + 1}.svg`, and the counters
advance as the two sources prescribe. -/
theorem vector_generate_design_ok {node : FigmaNode} {s : VecState}
    {out : (String × List SvgLine × List String) × VecState}
    (h : vector_generate_design node s = .ok out) :
    ∃ rc, processPairs node (svgPairs node) s.graphicCounter = .ok rc
      ∧ out = (("file" ++ pyNatRepr (s.svgCounter + 1) ++ ".svg", rc.1, rc.2.1),
               ⟨s.svgCounter + 1, rc.2.2⟩) := by
  revert h
  simp only [vector_generate_design]
  cases hc : create_svg_file node s.graphicCounter with
  | error e =>
    intro h
    exact absurd h (by simp)
  | ok rc =>
    cases hbb : node.absoluteBoundingBox with
    | none =>
      intro h
      exact absurd h (by simp)
    | some bb =>
      intro h
      simp only [Except.ok.injEq] at h
      have hc' : processPairs node (svgPairs node) s.graphicCounter = .ok rc := by
        rw [create_svg_file, hbb] at hc
        exact hc
      exact ⟨rc, hc', h.symm⟩

/-- As `processPairs_ids`, lifted to a whole completed run of vector nodes. -/
theorem runVectors_ids : ∀ (nodes : List FigmaNode) (s : VecState)
      (r : List (String × List SvgLine × List String) × VecState),
    runVectors nodes s = .ok r →
    s.graphicCounter ≤ r.2.graphicCounter
      ∧ (∀ i ∈ runIdNums r.1, s.graphicCounter < i ∧ i ≤ r.2.graphicCounter)
      ∧ List.Pairwise (· < ·) (runIdNums r.1)
  | [], s, r, h => by
    simp only [runVectors, Except.ok.injEq] at h
    subst h
    simp [runIdNums]
  | node :: nodes, s, r, h => by
    simp only [runVectors] at h
    cases hv : vector_generate_design node s with
    | error e =>
      rw [hv] at h
      exact absurd h (by simp)
    | ok r1 =>
      rw [hv] at h
      have h' : (match runVectors nodes r1.2 with
                 | .error e =>
                     (.error e : Except String
                       (List (String × List SvgLine × List String) × VecState))
                 | .ok rs => .ok (r1.1 :: rs.1, rs.2)) = .ok r := h
      cases hr : runVectors nodes r1.2 with
      | error e =>
        rw [hr] at h'
        exact absurd h' (by simp)
      | ok rs =>
        rw [hr] at h'
        simp only [Except.ok.injEq] at h'
        subst h'
        obtain ⟨rc, hrc, hout⟩ := vector_generate_design_ok hv
        subst hout
        have hrec := runVectors_ids nodes ⟨s.svgCounter + 1, rc.2.2⟩ rs hr
        obtain ⟨hr1, hr2, hr3⟩ := hrec
        obtain ⟨hp1, hp2, hp3⟩ := processPairs_ids node (svgPairs node) s.graphicCounter rc hrc
        have hr1' : rc.2.2 ≤ rs.2.graphicCounter := hr1
        have hr2' : ∀ i ∈ runIdNums rs.1, rc.2.2 < i ∧ i ≤ rs.2.graphicCounter := hr2
        show s.graphicCounter ≤ rs.2.graphicCounter
          ∧ (∀ i ∈ idNums rc.1 ++ runIdNums rs.1,
              s.graphicCounter < i ∧ i ≤ rs.2.graphicCounter)
          ∧ List.Pairwise (· < ·) (idNums rc.1 ++ runIdNums rs.1)
        refine ⟨by omega, ?_, ?_⟩
        · intro i hi
          rcases List.mem_append.mp hi with ha | hb
          · have := hp2 i ha
            constructor
            · omega
            · omega
          · have := hr2' i hb
            constructor
            · omega
            · omega
        · apply List.pairwise_append.mpr
          refine ⟨hp3, hr3, ?_⟩
          intro a ha b hb
          have hA := hp2 a ha
          have hB := hr2' b hb
          omega

/-- The filenames of a completed run, in emission order. -/
def runFilenames (rs : List (String × List SvgLine × List String)) : List String :=
  rs.map (·.1)

theorem runVectors_filenames : ∀ (nodes : List FigmaNode) (s : VecState)
      (r : List (String × List SvgLine × List String) × VecState),
    runVectors nodes s = .ok r →
    runFilenames r.1
        = (List.range nodes.length).map
            (fun i => "file" ++ pyNatRepr (s.svgCounter + i + 1) ++ ".svg")
      ∧ r.2.svgCounter = s.svgCounter + nodes.length
  | [], s, r, h => by
    simp only [runVectors, Except.ok.injEq] at h
    subst h
    simp [runFilenames]
  | node :: nodes, s, r, h => by
    simp only [runVectors] at h
    cases hv : vector_generate_design node s with
    | error e =>
      rw [hv] at h
      exact absurd h (by simp)
    | ok r1 =>
      rw [hv] at h
      have h' : (match runVectors nodes r1.2 with
                 | .error e =>
                     (.error e : Except String
                       (List (String × List SvgLine × List String) × VecState))
                 | .ok rs => .ok (r1.1 :: rs.1, rs.2)) = .ok r := h
      cases hr : runVectors nodes r1.2 with
      | error e =>
        rw [hr] at h'
        exact absurd h' (by simp)
      | ok rs =>
        rw [hr] at h'
        simp only [Except.ok.injEq] at h'
        subst h'
        obtain ⟨rc, hrc, hout⟩ := vector_generate_design_ok hv
        subst hout
        obtain ⟨hf1, hf2⟩ := runVectors_filenames nodes ⟨s.svgCounter + 1, rc.2.2⟩ rs hr
        have hf1' : runFilenames rs.1
            = (List.range nodes.length).map
                (fun i => "file" ++ pyNatRepr (s.svgCounter + 1 + i + 1) ++ ".svg") := hf1
        have hf2' : rs.2.svgCounter = s.svgCounter + 1 + nodes.length := hf2
        show ("file" ++ pyNatRepr (s.svgCounter + 1) ++ ".svg") :: runFilenames rs.1
            = (List.range (node :: nodes).length).map
                (fun i => "file" ++ pyNatRepr (s.svgCounter + i + 1) ++ ".svg")
          ∧ rs.2.svgCounter = s.svgCounter + (node :: nodes).length
        constructor
        · rw [hf1']
          simp only [List.length_cons, List.range_succ_eq_map, List.map_cons, List.map_map]
          have hhead : s.svgCounter + 0 + 1 = s.svgCounter + 1 := by omega
          rw [hhead]
          congr 1
          apply List.map_congr_left
          intro i _
          simp only [Function.comp_apply]
          congr 3
          omega
        · rw [List.length_cons]
          omega

theorem filename_inj {m n : Nat}
    (h : "file" ++ pyNatRepr m ++ ".svg" = "file" ++ pyNatRepr n ++ ".svg") : m = n := by
  apply pyNatRepr_inj
  have hd := congrArg String.data h
  simp only [String.data_append] at hd
  have h1 : "file".data ++ (pyNatRepr m).data = "file".data ++ (pyNatRepr n).data :=
    List.append_cancel_right hd
  have h2 : (pyNatRepr m).data = (pyNatRepr n).data := List.append_cancel_left h1
  exact String.ext h2

/-- Claim C7, amended.  Two process-wide counters serve the vector pass: one
for output filenames (advanced once per vector node) and one for
markup-internal gradient and image ids (advanced once per (geometry, graphic)
pair).  Across any completed run both increase monotonically and are never
reset, so all filenames of one run are pairwise distinct and all markup ids
of one run are pairwise distinct. -/
theorem claim_C7_two_counters (nodes : List FigmaNode) (s : VecState)
    (r : List (String × List SvgLine × List String) × VecState)
    (hrun : runVectors nodes s = .ok r) :
    r.2.svgCounter = s.svgCounter + nodes.length
      ∧ s.graphicCounter ≤ r.2.graphicCounter
      ∧ runFilenames r.1
          = (List.range nodes.length).map
              (fun i => "file" ++ pyNatRepr (s.svgCounter + i + 1) ++ ".svg")
      ∧ (runFilenames r.1).Nodup
      ∧ List.Pairwise (· < ·) (runIdNums r.1)
      ∧ (runIdNums r.1).Nodup := by
  obtain ⟨hf1, hf2⟩ := runVectors_filenames nodes s r hrun
  obtain ⟨hi1, _, hi3⟩ := runVectors_ids nodes s r hrun
  refine ⟨hf2, hi1, hf1, ?_, hi3, hi3.imp Nat.ne_of_lt⟩
  rw [hf1]
  apply (List.nodup_range _).map
  intro a b hab
  have := filename_inj hab
  omega

/-- The result of running the vector pass over `[nodeC7, nodeC7]` from fresh
counters. -/
def runC7result : List (String × List SvgLine × List String) × VecState :=
  ([("file1.svg",
     [.linGradOpen 1 0 0 1 1, .gradClose, .path (.gradientRef 1) 0 1 1 "p"], []),
    ("file2.svg",
     [.linGradOpen 2 0 0 1 1, .gradClose, .path (.gradientRef 2) 0 1 1 "p"], [])],
   ⟨2, 2⟩)

/-- Witness for the amended C7: a completed two-node run draws filenames
`file1.svg, file2.svg` (pairwise distinct) and markup ids `1, 2` (pairwise
distinct). -/
theorem claim_C7_two_counters_witness :
    runFilenames runC7result.1 = ["file1.svg", "file2.svg"]
      ∧ (runFilenames runC7result.1).Nodup
      ∧ runIdNums runC7result.1 = [1, 2]
      ∧ (runIdNums runC7result.1).Nodup := by
  have h := claim_C7_two_counters [nodeC7, nodeC7] ⟨0, 0⟩ runC7result (by decide)
  refine ⟨?_, h.2.2.2.1, by decide, h.2.2.2.2.2⟩
  rw [h.2.2.1]
  decide

/-! ## Claim C4: the CustomButton construction precondition

`CustomButtonGenerator.__init__` (custom_button_generator.py lines 13–19)
raises when the backing group has fewer than four children, and otherwise
binds `children[-1]`, `children[-2]`, `children[-3]` as the mouse-over,
pressed and disabled visibility toggles. -/

/-- The three visibility-toggle bindings made by a successful construction. -/
structure ButtonToggles (α : Type) where
  mouseOver : α
  pressed : α
  disabled : α
deriving DecidableEq

/-- `CustomButtonGenerator.__init__`: fail when the group has fewer than four
children; otherwise bind the last three children, from the end, as the
mouse-over, pressed and disabled toggles. -/
def custom_button_init {α : Type} (qWidgetName : String) (groupChildren : List α) :
    Except String (ButtonToggles α) :=
  if h : groupChildren.length < 4 then
    .error ("Custom button " ++ qWidgetName ++ " should have at least 4 children")
  else
    .ok ⟨groupChildren.get ⟨groupChildren.length - 1, by omega⟩,
         groupChildren.get ⟨groupChildren.length - 2, by omega⟩,
         groupChildren.get ⟨groupChildren.length - 3, by omega⟩⟩

/-- Claim C4.  Construction fails exactly when the backing group has fewer
than four children; with at least four it succeeds and binds the last child
as the mouse-over toggle, the second-to-last as the pressed toggle and the
third-to-last as the disabled toggle. -/
theorem claim_C4_custom_button (α : Type) (name : String) (l : List α) :
    (l.length < 4 →
        custom_button_init name l
          = .error ("Custom button " ++ name ++ " should have at least 4 children"))
      ∧ (∀ h : 4 ≤ l.length,
          custom_button_init name l
            = .ok ⟨l.get ⟨l.length - 1, by omega⟩,
                   l.get ⟨l.length - 2, by omega⟩,
                   l.get ⟨l.length - 3, by omega⟩⟩) := by
  constructor
  · intro h
    rw [custom_button_init, dif_pos h]
  · intro h
    rw [custom_button_init, dif_neg (by omega)]

/-- Witness for C4: a group with 3 children fails construction; with exactly
4 it succeeds, binding `40 / 30 / 20` (the last three, from the end) as the
over / pressed / disabled toggles. -/
theorem claim_C4_custom_button_witness :
    custom_button_init "btn" [0, 1, 2]
        = .error "Custom button btn should have at least 4 children"
      ∧ custom_button_init "btn" [10, 20, 30, 40] = .ok ⟨40, 30, 20⟩ := by
  constructor
  · have h := (claim_C4_custom_button Nat "btn" [0, 1, 2]).1 (by decide)
    rw [h]
    rfl
  · have h := (claim_C4_custom_button Nat "btn" [10, 20, 30, 40]).2 (by decide)
    rw [h]
    rfl

/-! ## Claim C6: namespace path inheritance

`DesignGenerator.__init__` (design_generator.py lines 49–55) copies the four
namespace class paths from the parent at construction time;
`FrameGenerator.generate_design` (frame_generator.py lines 37–40) extends its
own four paths with `.{ShortClassName}Handler` / `Controller` / `Strings` /
`Config` before constructing its children.  The recursive construction driver
(FactoryGenerator) is not under src/ and is modelled from the spec. -/

/-- The four namespace class paths of a generator node. -/
structure Paths where
  handler : String
  controller : String
  strings : String
  config : String
deriving DecidableEq

/-- The frame override (frame_generator.py lines 37–40):
`self.handler_class_path = f'{self.handler_class_path}.{self.short_class_name}Handler'`
and likewise for the other three paths. -/
def framePaths (p : Paths) (short : String) : Paths :=
  ⟨p.handler ++ "." ++ short ++ "Handler",
   p.controller ++ "." ++ short ++ "Controller",
   p.strings ++ "." ++ short ++ "Strings",
   p.config ++ "." ++ short ++ "Config"⟩

/-- Python `str.title()` on a character list (ASCII fragment): uppercase a
letter after a non-letter, lowercase a letter after a letter. -/
def pyTitleChars : Bool → List Char → List Char
  | _, [] => []
  | prevAlpha, c :: rest =>
    (if c.isAlpha then (if prevAlpha then c.toLower else c.toUpper) else c)
      :: pyTitleChars c.isAlpha rest

/-- `short_class_name = q_widget_name.replace('_', ' ').title().replace(' ', '')`
(design_generator.py line 48). -/
def pyShortClassName (qName : String) : String :=
  ⟨(pyTitleChars false (qName.data.map fun c => if c = '_' then ' ' else c)).filter
      fun c => !(c = ' ')⟩

/-- The input document tree restricted to what namespace propagation reads:
the node name and whether the node is handled by the Frame variant. -/
inductive FigTree : Type where
  | node (name : String) (frame : Bool) (children : List FigTree)

/-- A built generator node: its unique identifier, short class name, variant
flag, the four paths copied from the parent at construction time
(`inheritedPaths`), the four paths after the frame override
(`effectivePaths`, equal to `inheritedPaths` for non-frames), and its
children. -/
inductive GNode : Type where
  | mk (qName short : String) (frame : Bool) (inheritedPaths effectivePaths : Paths)
      (children : List GNode)

def GNode.qName : GNode → String
  | .mk n _ _ _ _ _ => n

def GNode.short : GNode → String
  | .mk _ s _ _ _ _ => s

def GNode.frame : GNode → Bool
  | .mk _ _ f _ _ _ => f

def GNode.inheritedPaths : GNode → Paths
  | .mk _ _ _ i _ _ => i

def GNode.effectivePaths : GNode → Paths
  | .mk _ _ _ _ e _ => e

def GNode.children : GNode → List GNode
  | .mk _ _ _ _ _ cs => cs

mutual
/-- Modelled from the spec: the construction driver (FactoryGenerator, not
under src/) builds the generator tree in one pre-order pass.  Each node runs
`DesignGenerator.__init__`: it takes its identifier from `create_name` and
copies the parent's current namespace paths; a Frame node then extends its own
four paths (frame_generator.py lines 37–40) before its children are built, so
its children copy the extended paths. -/
def buildNode : FigTree → Paths → List String → GNode × List String
  | .node nm fr cs, inh, used =>
    let p := create_name used nm
    let short := pyShortClassName p.1
    let eff := if fr then framePaths inh short else inh
    let r := buildChildren cs eff p.2
    (.mk p.1 short fr inh eff r.1, r.2)

/-- Children are built left to right, threading the used-name registry. -/
def buildChildren : List FigTree → Paths → List String → List GNode × List String
  | [], _, used => ([], used)
  | t :: ts, inh, used =>
    let r := buildNode t inh used
    let rs := buildChildren ts inh r.2
    (r.1 :: rs.1, rs.2)
end

mutual
/-- All nodes of a built subtree, in pre-order. -/
def GNode.allNodes : GNode → List GNode
  | .mk n s f i e cs => .mk n s f i e cs :: allNodesList cs

def allNodesList : List GNode → List GNode
  | [] => []
  | g :: gs => g.allNodes ++ allNodesList gs
end

/-- The construction-time path propagation invariant, for every node of a
built subtree. -/
def pathInvariant (g : GNode) : Prop :=
  (g.effectivePaths = if g.frame then framePaths g.inheritedPaths g.short
                      else g.inheritedPaths)
    ∧ ∀ c ∈ g.children, c.inheritedPaths = g.effectivePaths

mutual
theorem buildNode_invariant : ∀ (t : FigTree) (inh : Paths) (used : List String),
    (buildNode t inh used).1.inheritedPaths = inh
      ∧ ∀ g ∈ (buildNode t inh used).1.allNodes, pathInvariant g
  | .node nm fr cs, inh, used => by
    obtain ⟨hch, hall⟩ := buildChildren_invariant cs
      (if fr then framePaths inh (pyShortClassName (create_name used nm).1) else inh)
      (create_name used nm).2
    refine ⟨rfl, ?_⟩
    intro g hg
    rw [show (buildNode (.node nm fr cs) inh used).1.allNodes
        = (buildNode (.node nm fr cs) inh used).1
            :: allNodesList (buildChildren cs
              (if fr then framePaths inh (pyShortClassName (create_name used nm).1) else inh)
              (create_name used nm).2).1 from rfl] at hg
    rcases List.mem_cons.mp hg with rfl | hmem
    · constructor
      · rfl
      · intro c hc
        exact hch c hc
    · exact hall g hmem

theorem buildChildren_invariant : ∀ (ts : List FigTree) (inh : Paths) (used : List String),
    (∀ g ∈ (buildChildren ts inh used).1, g.inheritedPaths = inh)
      ∧ ∀ g ∈ allNodesList (buildChildren ts inh used).1, pathInvariant g
  | [], inh, used => by simp [buildChildren, allNodesList]
  | t :: ts, inh, used => by
    obtain ⟨hn1, hn2⟩ := buildNode_invariant t inh used
    obtain ⟨hc1, hc2⟩ := buildChildren_invariant ts inh (buildNode t inh used).2
    constructor
    · intro g hg
      rcases List.mem_cons.mp hg with rfl | hmem
      · exact hn1
      · exact hc1 g hmem
    · intro g hg
      rw [show allNodesList (buildChildren (t :: ts) inh used).1
          = (buildNode t inh used).1.allNodes
              ++ allNodesList (buildChildren ts inh (buildNode t inh used).2).1 from rfl] at hg
      rcases List.mem_append.mp hg with hmem | hmem
      · exact hn2 g hmem
      · exact hc2 g hmem
end

/-- Claim C6.  For every generator node `g` of a built tree and every child
`c` of `g`: the four namespace paths `c` receives at construction equal `g`'s
current (effective) paths; when `g` is not a Frame these are exactly `g`'s own
construction-time paths, and when `g` is a Frame all four are reset to a new
namespace derived from `g`'s identifier (its short class name, suffixed
`Handler` / `Controller` / `Strings` / `Config`). -/
theorem claim_C6_namespace_inheritance (t : FigTree) (inh : Paths) (used : List String)
    (g : GNode) (hg : g ∈ (buildNode t inh used).1.allNodes)
    (c : GNode) (hc : c ∈ g.children) :
    c.inheritedPaths = g.effectivePaths
      ∧ (g.frame = false → c.inheritedPaths = g.inheritedPaths)
      ∧ (g.frame = true →
          c.inheritedPaths = framePaths g.inheritedPaths g.short) := by
  obtain ⟨heff, hch⟩ := (buildNode_invariant t inh used).2 g hg
  refine ⟨hch c hc, ?_, ?_⟩
  · intro hfr
    rw [hch c hc, heff, hfr]
    simp
  · intro hfr
    rw [hch c hc, heff, hfr]
    simp

instance : Inhabited GNode :=
  ⟨.mk "" "" false ⟨"", "", "", ""⟩ ⟨"", "", "", ""⟩ []⟩

/-- Witness for C6: a frame named `Main` (identifier `main`, short class name
`Main`) built over empty paths gives its child construction-time paths
`.MainHandler` / `.MainController` / `.MainStrings` / `.MainConfig`. -/
theorem claim_C6_namespace_inheritance_witness :
    ((buildNode (.node "Main" true [.node "box" false []]) ⟨"", "", "", ""⟩ []).1.children.map
        GNode.inheritedPaths)
      = [⟨".MainHandler", ".MainController", ".MainStrings", ".MainConfig"⟩] := by
  obtain ⟨h1, h2, h3⟩ := claim_C6_namespace_inheritance
    (.node "Main" true [.node "box" false []]) ⟨"", "", "", ""⟩ []
    (buildNode (.node "Main" true [.node "box" false []]) ⟨"", "", "", ""⟩ []).1
    (List.mem_cons_self _ _)
    (buildNode (.node "Main" true [.node "box" false []]) ⟨"", "", "", ""⟩
      []).1.children.headI
    (by
      rw [show (buildNode (.node "Main" true [.node "box" false []])
        ⟨"", "", "", ""⟩ []).1.children
          = [(buildNode (.node "Main" true [.node "box" false []])
              ⟨"", "", "", ""⟩ []).1.children.headI] from rfl]
      exact List.mem_cons_self _ _)
  rw [show (buildNode (.node "Main" true [.node "box" false []])
      ⟨"", "", "", ""⟩ []).1.children
        = [(buildNode (.node "Main" true [.node "box" false []])
            ⟨"", "", "", ""⟩ []).1.children.headI] from rfl,
    List.map_cons, List.map_nil, h3 rfl]
  decide
